import Mathlib

/-!
Formal model of the YT-Navigator hybrid retrieval pipeline
(`app/services/vector_database/*` and `app/services/chunks_reranker/*`),
together with theorems about its search, scoring, fingerprinting and
reranking operations.

Modelling conventions:
* Python floats are idealized as exact rationals; a non-finite float
  (NaN / infinity) is modelled by `none` in `PyFloat := Option ℚ`.
* Python dicts are insertion-ordered association lists (`Dict`); assignment
  to an existing key replaces the value in place, otherwise it appends.
* Fallible external calls (vector store, database, cross-encoder model) are
  oracle parameters of type `Except PyErr _`; an uncaught Python exception
  is an `Except.error` result.
-/

set_option maxRecDepth 100000

/-- A Python exception, identified by its message. -/
structure PyErr where
  msg : String
deriving DecidableEq

/-- The video metadata record produced by `VectorDatabaseTools._get_video_data`,
whose fields come from the `Video` model (all serialized to strings). -/
structure VideoInfo where
  id : String
  title : String
  thumbnail : String
  published_at : String
  channel : String
deriving DecidableEq

/-- Python values that flow through the pipeline's metadata dictionaries.
`vNan` is a non-finite float; `vVideo` is the enrichment stage's nested
`video` dict (always of the fixed five-field shape, so it is kept flat). -/
inductive PyVal where
  | vStr (s : String)
  | vInt (n : Int)
  | vFloat (q : ℚ)
  | vNan
  | vNone
  | vVideo (v : VideoInfo)
deriving DecidableEq

open PyVal

/-- A non-finite Python float is `none`. -/
abbrev PyFloat := Option ℚ

/-- An insertion-ordered Python dict with `String` keys. -/
abbrev Dict (α : Type) := List (String × α)

/-- First binding of a key (Python dicts have unique keys, so this is the
binding). -/
def dGet (d : Dict α) (k : String) : Option α :=
  match d with
  | [] => none
  | (k', v) :: rest => if k' = k then some v else dGet rest k

/-- Python `k in d`. -/
def dHas (d : Dict α) (k : String) : Bool :=
  match d with
  | [] => false
  | (k', _) :: rest => k' = k || dHas rest k

/-- Python `d[k] = v`: replace the first binding of `k` in place, else append. -/
def dSet (d : Dict α) (k : String) (v : α) : Dict α :=
  match d with
  | [] => [(k, v)]
  | (k', v') :: rest => if k' = k then (k', v) :: rest else (k', v') :: dSet rest k v

/-- Python `{**d, **src}` tail: assign all bindings of `src` into `d`, in order. -/
def dSetAll (d : Dict α) (src : Dict α) : Dict α :=
  src.foldl (fun acc p => dSet acc p.1 p.2) d

/-- The keys of a dict, in order. -/
def dKeys (d : Dict α) : List String := d.map Prod.fst

/-- Well-formedness: a real Python dict never has duplicate keys. -/
def DictWF (d : Dict α) : Prop := (dKeys d).Nodup

instance (d : Dict α) : Decidable (DictWF d) :=
  inferInstanceAs (Decidable (dKeys d).Nodup)

/-- Python truthiness of the values we model ( `bool(v)` ). -/
def PyVal.truthy : PyVal → Bool
  | vStr s => s ≠ ""
  | vInt n => n ≠ 0
  | vFloat q => q ≠ 0
  | vNan => true
  | vNone => false
  | vVideo _ => true

/-- Pydantic coercion into a `str` field (strict: only `str` accepted). -/
def PyVal.asStr? : PyVal → Option String
  | vStr s => some s
  | _ => none

/-- Pydantic coercion into a `float` field: ints and floats (including
non-finite ones) are accepted, everything else is a validation error.
(The lax numeric-string coercion is not modelled; no string-valued score
occurs in the pipeline.) -/
def PyVal.asFloat? : PyVal → Option PyFloat
  | vInt n => some (some (n : ℚ))
  | vFloat q => some (some q)
  | vNan => some none
  | _ => none

/-! ### Decimal / string representations -/

/-- Lower-case hex digit. -/
def hexDigitChar (n : Nat) : Char :=
  if n < 10 then Char.ofNat (48 + n) else Char.ofNat (87 + n)

/-- Fractional decimal digits of `r` (with `0 ≤ r < 1`), fuel-bounded. -/
def fracDigits : Nat → ℚ → List Char
  | 0, _ => []
  | fuel + 1, r =>
    if r = 0 then []
    else
      let d := Int.toNat (Int.floor (r * 10))
      hexDigitChar d :: fracDigits fuel (r * 10 - Int.floor (r * 10))

/-- Python `repr` of a (finite) float, idealized as the exact decimal
expansion of the rational (integral floats print a trailing `.0`, matching
Python). -/
def pyFloatRepr (q : ℚ) : String :=
  let sign := if q < 0 then "-" else ""
  let a := |q|
  let ip := Int.toNat (Int.floor a)
  let fr := a - Int.floor a
  let ds := fracDigits 60 fr
  sign ++ toString ip ++ "." ++ (if ds.isEmpty then "0" else String.mk ds)

/-- Python `str(v)` for the values we model (`repr`-style for nested dicts). -/
def PyVal.pyStr : PyVal → String
  | vStr s => s
  | vInt n => toString n
  | vFloat q => pyFloatRepr q
  | vNan => "nan"
  | vNone => "None"
  | vVideo v =>
    "\x7b'id': '" ++ v.id ++ "', 'title': '" ++ v.title ++ "', 'thumbnail': '" ++
      v.thumbnail ++ "', 'published_at': '" ++ v.published_at ++ "', 'channel': '" ++
      v.channel ++ "'\x7d"

/-! ### `json.dumps` with default options (as used by `get_chunk_id`) -/

/-- Four-digit hex escape body. -/
def uHex (n : Nat) : List Char :=
  [hexDigitChar (n / 4096 % 16), hexDigitChar (n / 256 % 16),
   hexDigitChar (n / 16 % 16), hexDigitChar (n % 16)]

/-- JSON escape of one character, `ensure_ascii=True` (Python escapes every
character outside `0x20`–`0x7e`, with the usual two-character shortcuts). -/
def jsonEscapeChar (c : Char) : List Char :=
  let n := c.toNat
  if c = '"' then ['\\', '"']
  else if c = '\\' then ['\\', '\\']
  else if n = 8 then ['\\', 'b']
  else if n = 9 then ['\\', 't']
  else if n = 10 then ['\\', 'n']
  else if n = 12 then ['\\', 'f']
  else if n = 13 then ['\\', 'r']
  else if n < 32 ∨ n > 126 then
    if n < 65536 then '\\' :: 'u' :: uHex n
    else
      let m := n - 65536
      ('\\' :: 'u' :: uHex (55296 + m / 1024)) ++ ('\\' :: 'u' :: uHex (56320 + m % 1024))
  else [c]

/-- `json.dumps` of a string. -/
def jsonStr (s : String) : String :=
  "\"" ++ String.mk ((s.data.map jsonEscapeChar).flatten) ++ "\""

/-- `json.dumps` of a metadata value (`NaN` is what Python emits for nan). -/
def jsonOfVal : PyVal → String
  | vStr s => jsonStr s
  | vInt n => toString n
  | vFloat q =>
    -- Python floats serialize via repr
    pyFloatRepr q
  | vNan => "NaN"
  | vNone => "null"
  | vVideo v =>
    "\x7b\"id\": " ++ jsonStr v.id ++ ", \"title\": " ++ jsonStr v.title ++
      ", \"thumbnail\": " ++ jsonStr v.thumbnail ++ ", \"published_at\": " ++
      jsonStr v.published_at ++ ", \"channel\": " ++ jsonStr v.channel ++ "\x7d"

/-- `json.dumps` of a dict: keys in insertion order (no `sort_keys`), with the
default `", "` and `": "` separators. -/
def jsonOfDict (d : Dict PyVal) : String :=
  "\x7b" ++ String.intercalate ", " (d.map (fun p => jsonStr p.1 ++ ": " ++ jsonOfVal p.2)) ++ "\x7d"

/-! ### SHA-256 (bytes as `Nat`, words mod `2^32`; everything is fuel-based
structural recursion so the kernel can evaluate it) -/

def w32 (n : Nat) : Nat := n % 4294967296

def rotr32 (x n : Nat) : Nat := w32 ((x >>> n) ||| (x <<< (32 - n)))

def xor3 (a b c : Nat) : Nat := Nat.xor (Nat.xor a b) c

def bigSigma0 (x : Nat) : Nat := xor3 (rotr32 x 2) (rotr32 x 13) (rotr32 x 22)

def bigSigma1 (x : Nat) : Nat := xor3 (rotr32 x 6) (rotr32 x 11) (rotr32 x 25)

def smallSigma0 (x : Nat) : Nat := xor3 (rotr32 x 7) (rotr32 x 18) (x >>> 3)

def smallSigma1 (x : Nat) : Nat := xor3 (rotr32 x 17) (rotr32 x 19) (x >>> 10)

def chFn (x y z : Nat) : Nat := Nat.xor (Nat.land x y) (Nat.land (w32 (Nat.xor x 4294967295)) z)

def majFn (x y z : Nat) : Nat := xor3 (Nat.land x y) (Nat.land x z) (Nat.land y z)

def sha256K : List Nat :=
  [1116352408, 1899447441, 3049323471, 3921009573, 961987163, 1508970993,
   2453635748, 2870763221, 3624381080, 310598401, 607225278, 1426881987,
   1925078388, 2162078206, 2614888103, 3248222580, 3835390401, 4022224774,
   264347078, 604807628, 770255983, 1249150122, 1555081692, 1996064986,
   2554220882, 2821834349, 2952996808, 3210313671, 3336571891, 3584528711,
   113926993, 338241895, 666307205, 773529912, 1294757372, 1396182291,
   1695183700, 1986661051, 2177026350, 2456956037, 2730485921, 2820302411,
   3259730800, 3345764771, 3516065817, 3600352804, 4094571909, 275423344,
   430227734, 506948616, 659060556, 883997877, 958139571, 1322822218,
   1537002063, 1747873779, 1955562222, 2024104815, 2227730452, 2361852424,
   2428436474, 2756734187, 3204031479, 3329325298]

def sha256H0 : List Nat :=
  [1779033703, 3144134277, 1013904242, 2773480762,
   1359893119, 2600822924, 528734635, 1541459225]

/-- Split a list into consecutive groups of `n` elements (fuel-based; fuel
`l.length` suffices whenever `n > 0`). This is also the reranker's
`chunk_docs` batching scheme. -/
def chunksOfAux (n : Nat) : Nat → List α → List (List α)
  | 0, _ => []
  | _, [] => []
  | fuel + 1, x :: xs => (x :: xs).take n :: chunksOfAux n fuel ((x :: xs).drop n)

def chunksOf (n : Nat) (l : List α) : List (List α) := chunksOfAux n l.length l

/-- Four big-endian bytes as a 32-bit word. -/
def bytesToWord : List Nat → Nat
  | [a, b, c, d] => a * 16777216 + b * 65536 + c * 256 + d
  | _ => 0

/-- SHA-256 message padding of a byte string. -/
def sha256Pad (msg : List Nat) : List Nat :=
  let len := msg.length
  let padZeros := (55 + 64 - len % 64) % 64
  let bitLen := len * 8
  msg ++ [0x80] ++ List.replicate padZeros 0 ++
    [w32 (bitLen / 72057594037927936) % 256, (bitLen / 281474976710656) % 256,
     (bitLen / 1099511627776) % 256, (bitLen / 4294967296) % 256,
     (bitLen / 16777216) % 256, (bitLen / 65536) % 256,
     (bitLen / 256) % 256, bitLen % 256]

/-- Extend the 16 message words by `fuel` further schedule words. -/
def sha256Sched (ws : List Nat) : Nat → List Nat
  | 0 => ws
  | fuel + 1 =>
    let i := ws.length
    let w := w32 (smallSigma1 (ws.getD (i - 2) 0) + ws.getD (i - 7) 0 +
                  smallSigma0 (ws.getD (i - 15) 0) + ws.getD (i - 16) 0)
    sha256Sched (ws ++ [w]) fuel

/-- One compression round; the state is `[a,b,c,d,e,f,g,h]`, `kw = (K_i, W_i)`. -/
def sha256Round (st : List Nat) (kw : Nat × Nat) : List Nat :=
  match st with
  | [a, b, c, d, e, f, g, h] =>
    let t1 := w32 (h + bigSigma1 e + chFn e f g + kw.1 + kw.2)
    let t2 := w32 (bigSigma0 a + majFn a b c)
    [w32 (t1 + t2), a, b, c, w32 (d + t1), e, f, g]
  | _ => st

/-- Process one 64-byte block. -/
def sha256Block (h : List Nat) (block : List Nat) : List Nat :=
  let ws := sha256Sched ((chunksOf 4 block).map bytesToWord) 48
  let st := (sha256K.zip ws).foldl sha256Round h
  (h.zip st).map (fun p => w32 (p.1 + p.2))

def sha256Words (msg : List Nat) : List Nat :=
  (chunksOf 64 (sha256Pad msg)).foldl sha256Block sha256H0

def wordBytes (w : Nat) : List Nat :=
  [(w / 16777216) % 256, (w / 65536) % 256, (w / 256) % 256, w % 256]

/-- The SHA-256 digest of a byte string, as 32 bytes. -/
def sha256Bytes (msg : List Nat) : List Nat :=
  ((sha256Words msg).map wordBytes).flatten

def byteToHex (b : Nat) : List Char := [hexDigitChar (b / 16), hexDigitChar (b % 16)]

def bytesToHex (bs : List Nat) : String := String.mk ((bs.map byteToHex).flatten)

/-- UTF-8 encoding of a code point. -/
def utf8EncodeCodePoint (c : Nat) : List Nat :=
  if c < 0x80 then [c]
  else if c < 0x800 then [0xC0 + c / 64, 0x80 + c % 64]
  else if c < 0x10000 then [0xE0 + c / 4096, 0x80 + (c / 64) % 64, 0x80 + c % 64]
  else [0xF0 + c / 262144, 0x80 + (c / 4096) % 64, 0x80 + (c / 64) % 64, 0x80 + c % 64]

def strUtf8 (s : String) : List Nat := (s.data.map (fun c => utf8EncodeCodePoint c.toNat)).flatten

/-- `hashlib.sha256(s.encode()).hexdigest()`. -/
def sha256Hex (s : String) : String := bytesToHex (sha256Bytes (strUtf8 s))

/-! ### Documents and the chunk fingerprint (`app/services/vector_database/utils.py`) -/

/-- A langchain `Document`: page content plus a metadata dict. -/
structure Doc where
  page_content : String
  metadata : Dict PyVal
deriving DecidableEq

/-- `get_chunk_id`: serialize `{"content": ..., "metadata": {non-null items}}`
with `json.dumps` (no `sort_keys`, so metadata keys stay in insertion order)
and hash with SHA-256. -/
def get_chunk_id (chunk : Doc) : String :=
  sha256Hex ("\x7b\"content\": " ++ jsonStr chunk.page_content ++ ", \"metadata\": " ++
    jsonOfDict (chunk.metadata.filter (fun p => p.2 ≠ vNone)) ++ "\x7d")

/-! ### Pydantic schemas (`app/schemas/vectorstore.py`) -/

/-- `ChunkSchema` (the optional `start_in_seconds` field is never set on the
search path and is omitted). -/
structure ChunkSchema where
  text : String
  start : String
  «end» : String
  videoId : String
  score : PyFloat
deriving DecidableEq

/-- `VideoSchema`. -/
structure VideoSchema where
  videoId : String
  title : String
  thumbnail : String
  published_at : String
  avg_score : PyFloat
deriving DecidableEq

/-- `QueryVectorStoreResponse`. -/
structure QueryVectorStoreResponse where
  chunks : List ChunkSchema
  videos : List VideoSchema
deriving DecidableEq

/-! ### `minimise_chunks` and `get_avg_score` (`vector_database/utils.py`) -/

/-- The five keys `minimise_chunks` requires of a result dict. -/
def requiredKeys : List String := ["text", "start", "end", "video_id", "score"]

/-- Build one `ChunkSchema` from a result dict (pydantic validation: `text`
and `video_id` must be strings, `score` must be numeric; `start`/`end` pass
through `str(...)` and always succeed). -/
def mkChunk (r : Dict PyVal) : Except PyErr ChunkSchema :=
  match ((dGet r "text").getD vNone).asStr?, ((dGet r "video_id").getD vNone).asStr?,
        ((dGet r "score").getD vNone).asFloat? with
  | some t, some v, some sc =>
    .ok ⟨t, ((dGet r "start").getD vNone).pyStr, ((dGet r "end").getD vNone).pyStr, v, sc⟩
  | _, _, _ => .error ⟨"ValidationError"⟩

/-- Total variant of `mkChunk` (defaults are never exercised when `mkChunk`
succeeds). -/
def extract_chunk (r : Dict PyVal) : ChunkSchema :=
  ⟨(((dGet r "text").getD vNone).asStr?).getD "",
   ((dGet r "start").getD vNone).pyStr,
   ((dGet r "end").getD vNone).pyStr,
   (((dGet r "video_id").getD vNone).asStr?).getD "",
   (((dGet r "score").getD vNone).asFloat?).getD (some 0)⟩

/-- `minimise_chunks`: keep exactly the dicts carrying all five required keys,
in order; a validation error on a kept dict propagates (pydantic raises). -/
def minimise_chunks : List (Dict PyVal) → Except PyErr (List ChunkSchema)
  | [] => .ok []
  | r :: rs =>
    if requiredKeys.all (fun k => dHas r k) then
      match mkChunk r, minimise_chunks rs with
      | .error e, _ => .error e
      | .ok _, .error e => .error e
      | .ok c, .ok cs => .ok (c :: cs)
    else minimise_chunks rs

/-- `get_avg_score`: mean score of the chunks of one video (`0.0` when the
video has no chunk). A non-finite member score makes the sum non-finite. -/
def get_avg_score (chunks : List ChunkSchema) (video_id : String) : PyFloat :=
  let relevant := chunks.filter (fun r => r.videoId = video_id)
  if relevant.isEmpty then some 0
  else if relevant.all (fun r => r.score.isSome) then
    some ((relevant.map (fun r => r.score.getD 0)).sum / relevant.length)
  else none

/-! ### `VectorDatabaseTools._standardize_scores` (`tools/vector_tool.py`)

`MinMaxScaler(feature_range=(0, 100)).fit_transform` computes
`x * scale + min_` with `scale = 100 / range` (a zero range is replaced by 1,
sklearn's `_handle_zeros_in_scale`) and `min_ = -data_min * scale`; it raises
`ValueError` on non-finite input, which the method catches by assigning the
neutral score 50 to every chunk. `np.round(_, 2)` rounds half to even. -/

def listMinQ : List ℚ → ℚ
  | [] => 0
  | x :: xs => xs.foldl min x

def listMaxQ : List ℚ → ℚ
  | [] => 0
  | x :: xs => xs.foldl max x

/-- Round half to even (numpy's rounding). -/
def roundHalfEvenQ (x : ℚ) : ℤ :=
  let f := ⌊x⌋
  let r := x - f
  if r < 1/2 then f
  else if (1 : ℚ)/2 < r then f + 1
  else if Even f then f else f + 1

/-- Round to 2 decimal places, half to even. -/
def round2 (x : ℚ) : ℚ := (roundHalfEvenQ (x * 100) : ℚ) / 100

/-- The successful `fit_transform` branch: `x * scale + min_` with
`scale = 100 / range` (range 0 replaced by 1) and `min_ = -data_min * scale`,
then `np.round(_, 2)`. -/
def scaleChunks (chunks : List ChunkSchema) : List ChunkSchema :=
  let scores := chunks.filterMap (fun c => c.score)
  let dataMin := listMinQ scores
  let dataMax := listMaxQ scores
  let scale := 100 / (if dataMax - dataMin = 0 then 1 else dataMax - dataMin)
  chunks.map (fun c => { c with score := some (round2 ((c.score.getD 0) * scale - dataMin * scale)) })

def standardize_scores (chunks : List ChunkSchema) : List ChunkSchema :=
  if chunks.isEmpty then chunks
  else if chunks.all (fun c => c.score.isSome) then scaleChunks chunks
  else
    -- `fit_transform` raised (non-finite input): every chunk gets the default 50
    chunks.map (fun c => { c with score := some 50 })

/-! ### The cross-encoder reranker (`chunks_reranker/reranker.py`, `config.py`) -/

def DEFAULT_BATCH_SIZE : Nat := 32

def MAX_BATCH_SIZE : Nat := 64

/-- The cross-encoder model, an oracle: scores a list of (query, text) pairs
or raises. -/
abbrev Predict := List (String × String) → Except PyErr (List PyFloat)

/-- `ChunksReRanker.chunk_docs`. -/
def chunk_docs (docs : List Doc) (size : Nat) : List (List Doc) := chunksOf size docs

/-- `ChunksReRanker.prepare_pairs`. -/
def prepare_pairs (query : String) (chunk : List Doc) : List (String × String) :=
  chunk.map (fun doc => (query, doc.page_content))

def pyOfFloat : PyFloat → PyVal
  | some q => vFloat q
  | none => vNan

/-- A scored result dict: `{"score": float(score), **doc.metadata, "text": doc.page_content}`. -/
def rankedDict (doc : Doc) (score : PyFloat) : Dict PyVal :=
  dSet (dSetAll (dSet [] "score" (pyOfFloat score)) doc.metadata) "text" (vStr doc.page_content)

/-- The error-path dict: `{"score": 0, **doc.metadata, "text": doc.page_content}`
(note the integer `0`). -/
def zeroDict (doc : Doc) : Dict PyVal :=
  dSet (dSetAll (dSet [] "score" (vInt 0)) doc.metadata) "text" (vStr doc.page_content)

/-- `ChunksReRanker.process_chunk`: score one batch; any error (including the
`strict=True` zip length mismatch) degrades the whole batch to score 0. -/
def process_chunk (predict : Predict) (query : String) (chunk : List Doc) : List (Dict PyVal) :=
  match predict (prepare_pairs query chunk) with
  | .error _ => chunk.map zeroDict
  | .ok scores =>
    if scores.length = chunk.length then
      (chunk.zip scores).map (fun p => rankedDict p.1 p.2)
    else chunk.map zeroDict

/-- Sort key for result dicts: `x["score"]` (always numeric on the pipeline;
a non-numeric value is treated as incomparable). -/
def scoreKey (r : Dict PyVal) : PyFloat :=
  match (dGet r "score").getD vNone with
  | vInt n => some (n : ℚ)
  | vFloat q => some q
  | _ => none

/-- Comparison of Python floats: every comparison involving NaN is false. -/
def pfLt (a b : PyFloat) : Bool :=
  match a, b with
  | some x, some y => x < y
  | _, _ => false

/-- Stable descending insertion: `x` goes before the first element not
strictly greater than it. -/
def insertDesc (lt : α → α → Bool) (x : α) : List α → List α
  | [] => [x]
  | y :: ys => if lt x y then y :: insertDesc lt x ys else x :: y :: ys

/-- Stable sort, descending (the model of Python's stable
`list.sort(key=..., reverse=True)`). -/
def sortByDesc (lt : α → α → Bool) : List α → List α
  | [] => []
  | x :: xs => insertDesc lt x (sortByDesc lt xs)

/-- `ChunksReRanker.rerank` / `_rerank`: batch, score each batch independently
(thread-pool completion order only permutes equal-score entries and is
modelled as submission order), concatenate, sort by score descending. -/
def rerank (predict : Predict) (query : String) (docs : List Doc) : List (Dict PyVal) :=
  if docs.isEmpty then []
  else sortByDesc (fun a b => pfLt (scoreKey a) (scoreKey b))
    (((chunk_docs docs DEFAULT_BATCH_SIZE).map (process_chunk predict query)).flatten)

/-! ### The orchestrator `VectorDatabaseTools.similarity_videos_search` -/

/-- The effectful sub-stages of one search call, as oracles. `rerankRaises`
models an unexpected exception escaping `ChunksReRanker.rerank` (the
orchestrator catches it). `videoData` is `_get_video_data`, which the
orchestrator does NOT guard. -/
structure SearchEnv where
  vstoreFound : Bool
  simRes : Except PyErr (List Doc)
  kwRes : Except PyErr (List Doc)
  videoData : Except PyErr (Dict VideoInfo)
  predict : Predict
  rerankRaises : Option PyErr

/-- A caught search stage degrades to the empty list. -/
def caughtOr : Except PyErr (List Doc) → List Doc
  | .ok l => l
  | .error _ => []

def similarity_results (env : SearchEnv) : List Doc := caughtOr env.simRes

def keyword_results (env : SearchEnv) : List Doc := caughtOr env.kwRes

/-- Dense results concatenated before sparse results. -/
def combined_results (env : SearchEnv) : List Doc :=
  similarity_results env ++ keyword_results env

/-- `{r.metadata.get("video_id") for r in combined_results if r.metadata.get("video_id")}`
(only emptiness is observed downstream). -/
def extracted_video_ids (combined : List Doc) : List PyVal :=
  (combined.map (fun r => (dGet r.metadata "video_id").getD vNone)).filter PyVal.truthy

/-- Enrichment: keep hits whose truthy `video_id` is a key of the video map,
attaching the resolved video dict. -/
def enrich_results (video_map : Dict VideoInfo) (combined : List Doc) : List Doc :=
  combined.filterMap (fun r =>
    let vid := (dGet r.metadata "video_id").getD vNone
    if vid.truthy then
      match vid with
      | vStr s =>
        match dGet video_map s with
        | some video => some ⟨r.page_content, dSet r.metadata "video" (vVideo video)⟩
        | none => none
      | _ => none
    else none)

def dedupAux (seen : List String) : List Doc → List Doc
  | [] => []
  | d :: ds =>
    if seen.contains d.page_content then dedupAux seen ds
    else d :: dedupAux (d.page_content :: seen) ds

/-- First-occurrence deduplication by exact text. -/
def dedupByText (docs : List Doc) : List Doc := dedupAux [] docs

/-- The reranker fallback: first 10 enriched candidates as
`{"content": ..., "video_id": ..., "score": 0.5, **doc.metadata}`. -/
def fallback_results (enriched : List Doc) : List (Dict PyVal) :=
  (enriched.take 10).map (fun doc =>
    dSetAll (dSet (dSet (dSet [] "content" (vStr doc.page_content))
        "video_id" ((dGet doc.metadata "video_id").getD vNone))
        "score" (vFloat (1/2))) doc.metadata)

/-- The rerank step with both fallback triggers (exception, or empty result). -/
def reranked_results (env : SearchEnv) (query : String) (enriched : List Doc) : List (Dict PyVal) :=
  match env.rerankRaises with
  | some _ => fallback_results enriched
  | none =>
    let rr := rerank env.predict query enriched
    if rr.isEmpty then fallback_results enriched else rr

/-- Valid results: `r.get("video_id") or r.get("videoId")` is truthy. -/
def valid_results0 (reranked : List (Dict PyVal)) : List (Dict PyVal) :=
  reranked.filter (fun r =>
    ((dGet r "video_id").getD vNone).truthy || ((dGet r "videoId").getD vNone).truthy)

/-- Key normalization: copy `videoId` to `video_id` when only the former exists. -/
def normalize_video_id (r : Dict PyVal) : Dict PyVal :=
  if dHas r "videoId" && !(dHas r "video_id") then
    dSet r "video_id" ((dGet r "videoId").getD vNone)
  else r

def video_id_of (r : Dict PyVal) : PyVal := (dGet r "video_id").getD vNone

/-- One `Counter` update. -/
def bump (acc : List (PyVal × Nat)) (v : PyVal) : List (PyVal × Nat) :=
  if acc.any (fun p => p.1 = v) then acc.map (fun p => if p.1 = v then (p.1, p.2 + 1) else p)
  else acc ++ [(v, 1)]

def counterAux (acc : List (PyVal × Nat)) : List PyVal → List (PyVal × Nat)
  | [] => acc
  | v :: vs => counterAux (bump acc v) vs

/-- `collections.Counter(ids)` as its insertion-ordered item list. -/
def counter_items (ids : List PyVal) : List (PyVal × Nat) := counterAux [] ids

/-- `Counter(...).most_common(5)` keys: `heapq.nlargest` is a stable
descending sort by count, ties favouring earlier (first-inserted) items. -/
def most_common_video_ids (valid : List (Dict PyVal)) : List PyVal :=
  ((sortByDesc (fun a b => a.2 < b.2) (counter_items (valid.map video_id_of))).take 5).map Prod.fst

def top_chunks_of (valid : List (Dict PyVal)) (most : List PyVal) : List (Dict PyVal) :=
  valid.filter (fun r => most.contains (video_id_of r))

/-- Video schema construction: one schema per selected id resolvable in the
video map (with the minimal-schema fallback when none resolves). -/
def build_unique_videos (video_map : Dict VideoInfo) (std : List ChunkSchema)
    (most : List PyVal) : List VideoSchema :=
  let main := most.filterMap (fun vid =>
    match vid with
    | vStr s =>
      match dGet video_map s with
      | some info =>
        some ⟨s, if info.title = "" then "Untitled Video" else info.title,
              info.thumbnail, info.published_at, get_avg_score std s⟩
      | none => none
    | _ => none)
  if main.isEmpty && !std.isEmpty then
    (std.take 5).filterMap (fun c =>
      if c.videoId = "" then none
      else some ⟨c.videoId, "Unknown Title", "", "", c.score⟩)
  else main

def videoLt (a b : VideoSchema) : Bool := pfLt a.avg_score b.avg_score

/-- The tail of the search after the rerank step: filter valid results,
normalize ids, select top videos, minimise + standardize chunks, build and
sort video schemas. -/
def finalize (video_map : Dict VideoInfo) (reranked : List (Dict PyVal)) :
    Except PyErr QueryVectorStoreResponse :=
  if reranked.isEmpty then .ok ⟨[], []⟩
  else
    let valid0 := valid_results0 reranked
    if valid0.isEmpty then .ok ⟨[], []⟩
    else
      let valid := valid0.map normalize_video_id
      let most := most_common_video_ids valid
      let top := top_chunks_of valid most
      match minimise_chunks top with
      | .error e => .error e
      | .ok mins =>
        let std := standardize_scores mins
        .ok ⟨std, sortByDesc videoLt (build_unique_videos video_map std most)⟩

/-- `similarity_videos_search`. The similarity, keyword and rerank stages are
individually guarded in the source; `_get_video_data` and the pydantic
constructors are not, so their exceptions escape as `.error`. -/
def similarity_videos_search (env : SearchEnv) (query : String) (channel_id : String) :
    Except PyErr QueryVectorStoreResponse :=
  if !env.vstoreFound then .ok ⟨[], []⟩
  else
    let combined := combined_results env
    if combined.isEmpty then .ok ⟨[], []⟩
    else if (extracted_video_ids combined).isEmpty then .ok ⟨[], []⟩
    else
      match env.videoData with
      | .error e => .error e
      | .ok video_map =>
        let enriched0 := enrich_results video_map combined
        if enriched0.isEmpty then .ok ⟨[], []⟩
        else finalize video_map (reranked_results env query (dedupByText enriched0))

/-! ### Concrete environments and side predicates used in the statements -/

/-- Metadata soundness of a retrieved document: a real Python dict (no
duplicate keys) whose `text` entry, when present, is a string, and which
carries no `score` entry. Every document produced by the ingestion pipeline
(`dict_to_langchain_documents` and the BM25 retriever) satisfies this. -/
def docMdOk (d : Doc) : Prop :=
  DictWF d.metadata ∧ (∀ v, dGet d.metadata "text" = some v → ∃ s, v = vStr s) ∧
    dGet d.metadata "score" = none

/-- A well-behaved search run: two hits from two videos, both resolvable. -/
def envHappy : SearchEnv :=
  { vstoreFound := true
    simRes := .ok [⟨"alpha", [("video_id", vStr "v1"), ("text", vStr "alpha"),
      ("start", vStr "00:00:00"), ("end", vStr "00:00:40")]⟩]
    kwRes := .ok [⟨"beta", [("id", vInt 1), ("video_id", vStr "v2"),
      ("start", vStr "00:00:10"), ("end", vStr "00:00:50"), ("text", vStr "beta")]⟩]
    videoData := .ok [("v1", ⟨"v1", "T1", "th1", "2024-01-01", "ch"⟩),
      ("v2", ⟨"v2", "T2", "th2", "2024-01-02", "ch"⟩)]
    predict := fun ps => .ok (ps.map (fun _ => some 1))
    rerankRaises := none }

/-- The same run, but `ChunksReRanker.rerank` raises. -/
def envRerankFail : SearchEnv :=
  { envHappy with rerankRaises := some ⟨"model exploded"⟩ }

/-- A run in which `_get_video_data` raises (database unavailable). -/
def envDbDown : SearchEnv :=
  { envHappy with videoData := .error ⟨"database error"⟩ }

/-- First-occurrence deduplication of a value list (spec-side helper for the
top-video selection). -/
def dedupFirst : List PyVal → List PyVal
  | [] => []
  | v :: vs => v :: (dedupFirst vs).filter (fun x => x ≠ v)

/-- The claim's description of top-video selection: the distinct ids in
first-encounter order, paired with their occurrence counts, stable-sorted by
count descending, first five. -/
def spec_top_video_ids (ids : List PyVal) : List PyVal :=
  ((sortByDesc (fun a b => a.2 < b.2)
    ((dedupFirst ids).map (fun v => (v, ids.count v)))).take 5).map Prod.fst

/-! ## Theorems -/

/-- Validation of the SHA-256 model against the FIPS 180-2 test vector. -/
theorem sha256Hex_abc :
    sha256Hex "abc" = "ba7816bf8f01cfea414140de5dae2223b00361a396177a9cb410ff61f20015ad" := by
  decide

/-! ### Dictionary lemmas -/

@[simp]
theorem dSetAll_nil (d : Dict α) : dSetAll d [] = d := rfl

theorem dSetAll_cons (d : Dict α) (p : String × α) (src : Dict α) :
    dSetAll d (p :: src) = dSetAll (dSet d p.1 p.2) src := rfl

@[simp]
theorem dGet_dSet_self (d : Dict α) (k : String) (v : α) : dGet (dSet d k v) k = some v := by
  induction d with
  | nil => simp [dSet, dGet]
  | cons p rest ih =>
    by_cases h : p.1 = k <;> simp [dSet, dGet, h, ih]

theorem dGet_dSet_ne (d : Dict α) (k k' : String) (v : α) (h : k' ≠ k) :
    dGet (dSet d k v) k' = dGet d k' := by
  induction d with
  | nil => simp [dSet, dGet, Ne.symm h]
  | cons p rest ih =>
    obtain ⟨a, b⟩ := p
    by_cases hp : a = k
    · subst hp
      simp [dSet, dGet, Ne.symm h]
    · by_cases hp' : a = k'
      · subst hp'
        simp [dSet, dGet, hp]
      · simp [dSet, dGet, hp, hp', ih]

theorem dGet_eq_none_of_not_mem_keys (d : Dict α) (k : String) (h : k ∉ dKeys d) :
    dGet d k = none := by
  induction d with
  | nil => rfl
  | cons p rest ih =>
    simp only [dKeys, List.map_cons, List.mem_cons, not_or] at h
    have h1 : ¬p.1 = k := fun hk => h.1 hk.symm
    simp [dGet, h1, ih (by simpa [dKeys] using h.2)]

theorem mem_keys_of_dGet_eq_some (d : Dict α) (k : String) (v : α) (h : dGet d k = some v) :
    k ∈ dKeys d := by
  induction d with
  | nil => simp [dGet] at h
  | cons p rest ih =>
    simp only [dGet] at h
    by_cases hp : p.1 = k
    · simp [dKeys, hp]
    · rw [if_neg hp] at h
      simp only [dKeys, List.map_cons, List.mem_cons]
      exact Or.inr (by simpa [dKeys] using ih h)

theorem dGet_dSetAll_of_none (d src : Dict α) (k : String) (h : dGet src k = none) :
    dGet (dSetAll d src) k = dGet d k := by
  induction src generalizing d with
  | nil => rfl
  | cons p rest ih =>
    simp only [dGet] at h
    by_cases hp : p.1 = k
    · simp [hp] at h
    · rw [if_neg hp] at h
      rw [dSetAll_cons, ih _ h, dGet_dSet_ne _ _ _ _ (fun hk => hp hk.symm)]

theorem dGet_dSetAll_of_some (d src : Dict α) (k : String) (v : α)
    (hnd : (dKeys src).Nodup) (h : dGet src k = some v) :
    dGet (dSetAll d src) k = some v := by
  induction src generalizing d with
  | nil => simp [dGet] at h
  | cons p rest ih =>
    obtain ⟨a, b⟩ := p
    have hnd' : (dKeys rest).Nodup := (List.nodup_cons.mp (by simpa [dKeys] using hnd)).2
    rw [dSetAll_cons]
    by_cases hp : a = k
    · subst hp
      simp only [dGet, if_pos rfl] at h
      have hk : a ∉ dKeys rest := (List.nodup_cons.mp (by simpa [dKeys] using hnd)).1
      rw [dGet_dSetAll_of_none _ _ _ (dGet_eq_none_of_not_mem_keys _ _ hk)]
      rw [← h]
      exact dGet_dSet_self d a b
    · simp only [dGet, if_neg hp] at h
      exact ih (dSet d a b) hnd' h

theorem dKeys_dSet (d : Dict α) (k : String) (v : α) :
    dKeys (dSet d k v) = if k ∈ dKeys d then dKeys d else dKeys d ++ [k] := by
  induction d with
  | nil => simp [dSet, dKeys]
  | cons p rest ih =>
    obtain ⟨a, b⟩ := p
    by_cases hp : a = k
    · subst hp
      simp [dSet, dKeys]
    · have hmem : (k ∈ dKeys ((a, b) :: rest)) ↔ (k ∈ dKeys rest) := by
        simp only [dKeys, List.map_cons, List.mem_cons]
        exact ⟨fun h => h.resolve_left (fun hk => hp hk.symm), Or.inr⟩
      by_cases hm : k ∈ dKeys rest
      · rw [if_pos (hmem.mpr hm)]
        simp only [dSet, if_neg hp, dKeys, List.map_cons]
        rw [show List.map Prod.fst (dSet rest k v) = dKeys (dSet rest k v) from rfl, ih,
          if_pos hm]
        rfl
      · rw [if_neg (fun hx => hm (hmem.mp hx))]
        simp only [dSet, if_neg hp, dKeys, List.map_cons]
        rw [show List.map Prod.fst (dSet rest k v) = dKeys (dSet rest k v) from rfl, ih,
          if_neg hm]
        rfl

theorem dSet_wf (d : Dict α) (k : String) (v : α) (h : DictWF d) : DictWF (dSet d k v) := by
  unfold DictWF at h ⊢
  rw [dKeys_dSet]
  by_cases hm : k ∈ dKeys d
  · simpa [hm] using h
  · rw [if_neg hm]
    exact List.Nodup.append h (List.nodup_singleton k) (by simpa using hm)

/-! ### Sorting lemmas -/

theorem insertDesc_perm (lt : α → α → Bool) (x : α) (l : List α) :
    List.Perm (insertDesc lt x l) (x :: l) := by
  induction l with
  | nil => rfl
  | cons y ys ih =>
    by_cases h : lt x y
    · simp only [insertDesc, h, if_true]
      exact (ih.cons y).trans (List.Perm.swap x y ys)
    · simp [insertDesc, h]

theorem sortByDesc_perm (lt : α → α → Bool) (l : List α) : List.Perm (sortByDesc lt l) l := by
  induction l with
  | nil => rfl
  | cons x xs ih => exact (insertDesc_perm lt x (sortByDesc lt xs)).trans (ih.cons x)

theorem mem_sortByDesc (lt : α → α → Bool) (l : List α) (a : α) :
    a ∈ sortByDesc lt l ↔ a ∈ l :=
  (sortByDesc_perm lt l).mem_iff

theorem length_sortByDesc (lt : α → α → Bool) (l : List α) :
    (sortByDesc lt l).length = l.length :=
  (sortByDesc_perm lt l).length_eq

theorem mem_insertDesc (lt : α → α → Bool) (x : α) (l : List α) (a : α) :
    a ∈ insertDesc lt x l ↔ a = x ∨ a ∈ l := by
  rw [(insertDesc_perm lt x l).mem_iff]
  simp

theorem insertDesc_pairwise (lt : α → α → Bool) (x : α) (l : List α)
    (hl : l.Pairwise (fun a b => lt a b = false))
    (hasym : ∀ b ∈ l, lt x b = true → lt b x = false)
    (hnt : ∀ b ∈ l, ∀ c ∈ l, lt x b = false → lt b c = false → lt x c = false) :
    (insertDesc lt x l).Pairwise (fun a b => lt a b = false) := by
  induction l with
  | nil => simp [insertDesc]
  | cons y ys ih =>
    rcases List.pairwise_cons.mp hl with ⟨hy, hys⟩
    by_cases hxy : lt x y
    · simp only [insertDesc, hxy, if_true]
      refine List.pairwise_cons.mpr ⟨?_, ?_⟩
      · intro a ha
        rcases (mem_insertDesc lt x ys a).mp ha with rfl | ha
        · exact hasym y (List.mem_cons_self y ys) hxy
        · exact hy a ha
      · exact ih hys (fun b hb => hasym b (List.mem_cons_of_mem y hb))
          (fun b hb c hc => hnt b (List.mem_cons_of_mem y hb) c (List.mem_cons_of_mem y hc))
    · simp only [insertDesc, hxy, if_false]
      refine List.pairwise_cons.mpr ⟨?_, hl⟩
      intro a ha
      rcases List.mem_cons.mp ha with rfl | ha
      · exact Bool.of_not_eq_true hxy
      · exact hnt y (List.mem_cons_self y ys) a (List.mem_cons_of_mem y ha)
          (Bool.of_not_eq_true hxy) (hy a ha)

theorem sortByDesc_pairwise (lt : α → α → Bool) (l : List α)
    (hasym : ∀ a ∈ l, ∀ b ∈ l, lt a b = true → lt b a = false)
    (hnt : ∀ a ∈ l, ∀ b ∈ l, ∀ c ∈ l, lt a b = false → lt b c = false → lt a c = false) :
    (sortByDesc lt l).Pairwise (fun a b => lt a b = false) := by
  induction l with
  | nil => simp [sortByDesc]
  | cons x xs ih =>
    have hmem : ∀ a ∈ sortByDesc lt xs, a ∈ x :: xs :=
      fun a ha => List.mem_cons_of_mem x ((mem_sortByDesc lt xs a).mp ha)
    exact insertDesc_pairwise lt x (sortByDesc lt xs)
      (ih (fun a ha b hb => hasym a (List.mem_cons_of_mem x ha) b (List.mem_cons_of_mem x hb))
          (fun a ha b hb c hc => hnt a (List.mem_cons_of_mem x ha) b (List.mem_cons_of_mem x hb)
            c (List.mem_cons_of_mem x hc)))
      (fun b hb => hasym x (List.mem_cons_self x xs) b (hmem b hb))
      (fun b hb c hc => hnt x (List.mem_cons_self x xs) b (hmem b hb) c (hmem c hc))

/-! ### C2: the chunk fingerprint -/

/-- C2 (counterexample): two chunks with the same text and the same set of
non-null metadata key/value pairs, presented in different key orders, get
DIFFERENT fingerprints — `get_chunk_id` serializes with `json.dumps` without
`sort_keys`, so the digest depends on metadata insertion order. -/
theorem get_chunk_id_key_order_counterexample :
    List.Perm ([("a", vStr "1"), ("b", vStr "2")] : Dict PyVal)
      [("b", vStr "2"), ("a", vStr "1")] ∧
    get_chunk_id ⟨"hello", [("a", vStr "1"), ("b", vStr "2")]⟩ ≠
      get_chunk_id ⟨"hello", [("b", vStr "2"), ("a", vStr "1")]⟩ := by
  constructor
  · decide
  · decide

/-- C2 (amended): the fingerprint is deterministic in the text together with
the ordered list of non-null metadata items: chunks that agree on the text
and on the non-null items in the same order (in particular, chunks differing
only in `None`-valued metadata entries) get the same fingerprint. Reordering
keys, however, changes the serialized form (see the counterexample). -/
theorem get_chunk_id_deterministic (c1 c2 : Doc)
    (h1 : c1.page_content = c2.page_content)
    (h2 : c1.metadata.filter (fun p => p.2 ≠ vNone) =
          c2.metadata.filter (fun p => p.2 ≠ vNone)) :
    get_chunk_id c1 = get_chunk_id c2 := by
  unfold get_chunk_id
  rw [h1, h2]

/-- Witness for `get_chunk_id_deterministic`: concrete chunks differing only
in the position and presence of a `None`-valued metadata entry. -/
theorem get_chunk_id_deterministic_witness :
    ((⟨"t", [("a", vStr "1"), ("x", vNone)]⟩ : Doc).page_content =
      (⟨"t", [("x", vNone), ("a", vStr "1")]⟩ : Doc).page_content ∧
     (⟨"t", [("a", vStr "1"), ("x", vNone)]⟩ : Doc).metadata.filter (fun p => p.2 ≠ vNone) =
      (⟨"t", [("x", vNone), ("a", vStr "1")]⟩ : Doc).metadata.filter (fun p => p.2 ≠ vNone)) ∧
    get_chunk_id ⟨"t", [("a", vStr "1"), ("x", vNone)]⟩ =
      get_chunk_id ⟨"t", [("x", vNone), ("a", vStr "1")]⟩ :=
  ⟨⟨rfl, by decide⟩,
   get_chunk_id_deterministic _ _ rfl (by decide)⟩

/-! ### C10: `minimise_chunks` -/

theorem mkChunk_ok_eq (r : Dict PyVal) (c : ChunkSchema) (h : mkChunk r = .ok c) :
    c = extract_chunk r := by
  unfold mkChunk at h
  cases ha : ((dGet r "text").getD vNone).asStr? with
  | none => simp [ha] at h
  | some t =>
    cases hb : ((dGet r "video_id").getD vNone).asStr? with
    | none => simp [ha, hb] at h
    | some v =>
      cases hc : ((dGet r "score").getD vNone).asFloat? with
      | none => simp [ha, hb, hc] at h
      | some sc =>
        simp only [ha, hb, hc] at h
        cases h
        simp [extract_chunk, ha, hb, hc]

/-- C10: `minimise_chunks` returns, in input order, one `ChunkSchema` for
exactly the dicts carrying all of `text`, `start`, `end`, `video_id` and
`score`; a dict missing any of them is silently dropped. (The hypothesis
rules out pydantic validation errors on the kept dicts, which would raise
instead.) -/
theorem minimise_chunks_filter (rs : List (Dict PyVal))
    (h : ∀ r ∈ rs, requiredKeys.all (fun k => dHas r k) = true → ∃ c, mkChunk r = .ok c) :
    minimise_chunks rs =
      .ok ((rs.filter (fun r => requiredKeys.all (fun k => dHas r k))).map extract_chunk) := by
  induction rs with
  | nil => rfl
  | cons r rest ih =>
    have hrest := ih (fun r' hr' => h r' (List.mem_cons_of_mem r hr'))
    by_cases hall : requiredKeys.all (fun k => dHas r k) = true
    · obtain ⟨c, hc⟩ := h r (List.mem_cons_self r rest) hall
      simp only [minimise_chunks, hall, if_true, hc, hrest]
      rw [mkChunk_ok_eq r c hc]
      simp [List.filter_cons, hall]
    · simp only [minimise_chunks, if_neg hall]
      rw [hrest, List.filter_cons]
      simp [hall]

/-- Witness for `minimise_chunks_filter`: a complete dict is kept, a dict
missing `start` is dropped. -/
theorem minimise_chunks_filter_witness :
    (∀ r ∈ ([[("text", vStr "hi"), ("start", vStr "0"), ("end", vStr "1"),
              ("video_id", vStr "v"), ("score", vFloat 1)],
             [("text", vStr "hi2"), ("end", vStr "1"), ("video_id", vStr "w"),
              ("score", vFloat 2)]] : List (Dict PyVal)),
      requiredKeys.all (fun k => dHas r k) = true → ∃ c, mkChunk r = .ok c) ∧
    minimise_chunks [[("text", vStr "hi"), ("start", vStr "0"), ("end", vStr "1"),
              ("video_id", vStr "v"), ("score", vFloat 1)],
             [("text", vStr "hi2"), ("end", vStr "1"), ("video_id", vStr "w"),
              ("score", vFloat 2)]] =
      .ok ((([[("text", vStr "hi"), ("start", vStr "0"), ("end", vStr "1"),
              ("video_id", vStr "v"), ("score", vFloat 1)],
             [("text", vStr "hi2"), ("end", vStr "1"), ("video_id", vStr "w"),
              ("score", vFloat 2)]] : List (Dict PyVal)).filter
          (fun r => requiredKeys.all (fun k => dHas r k))).map extract_chunk) := by
  have h : ∀ r ∈ ([[("text", vStr "hi"), ("start", vStr "0"), ("end", vStr "1"),
              ("video_id", vStr "v"), ("score", vFloat 1)],
             [("text", vStr "hi2"), ("end", vStr "1"), ("video_id", vStr "w"),
              ("score", vFloat 2)]] : List (Dict PyVal)),
      requiredKeys.all (fun k => dHas r k) = true → ∃ c, mkChunk r = .ok c := by
    intro r hr hall
    rcases List.mem_cons.mp hr with rfl | hr'
    · exact ⟨_, rfl⟩
    · rcases List.mem_cons.mp hr' with rfl | hr''
      · exact absurd hall (by decide)
      · simp at hr''
  exact ⟨h, minimise_chunks_filter _ h⟩

/-! ### Numeric lemmas for score standardization -/

theorem foldl_min_le (as : List ℚ) (a : ℚ) :
    as.foldl min a ≤ a ∧ ∀ x ∈ as, as.foldl min a ≤ x := by
  induction as generalizing a with
  | nil => simp
  | cons b bs ih =>
    refine ⟨le_trans (ih (min a b)).1 (min_le_left a b), ?_⟩
    intro x hx
    rcases List.mem_cons.mp hx with rfl | hx
    · exact le_trans (ih (min a x)).1 (min_le_right a x)
    · exact (ih (min a b)).2 x hx

theorem le_foldl_max (as : List ℚ) (a : ℚ) :
    a ≤ as.foldl max a ∧ ∀ x ∈ as, x ≤ as.foldl max a := by
  induction as generalizing a with
  | nil => simp
  | cons b bs ih =>
    refine ⟨le_trans (le_max_left a b) (ih (max a b)).1, ?_⟩
    intro x hx
    rcases List.mem_cons.mp hx with rfl | hx
    · exact le_trans (le_max_right a x) (ih (max a x)).1
    · exact (ih (max a b)).2 x hx

theorem listMinQ_le (l : List ℚ) (x : ℚ) (hx : x ∈ l) : listMinQ l ≤ x := by
  cases l with
  | nil => simp at hx
  | cons a as =>
    rcases List.mem_cons.mp hx with rfl | hx
    · exact (foldl_min_le as x).1
    · exact (foldl_min_le as a).2 x hx

theorem le_listMaxQ (l : List ℚ) (x : ℚ) (hx : x ∈ l) : x ≤ listMaxQ l := by
  cases l with
  | nil => simp at hx
  | cons a as =>
    rcases List.mem_cons.mp hx with rfl | hx
    · exact (le_foldl_max as x).1
    · exact (le_foldl_max as a).2 x hx

theorem roundHalfEvenQ_bounds (x : ℚ) (lo hi : ℤ) (h1 : (lo : ℚ) ≤ x) (h2 : x ≤ (hi : ℚ)) :
    lo ≤ roundHalfEvenQ x ∧ roundHalfEvenQ x ≤ hi := by
  have hfl : lo ≤ ⌊x⌋ := Int.le_floor.mpr h1
  have hfh : ⌊x⌋ ≤ hi := by
    have := Int.floor_le_floor h2
    simpa using this
  have hfx : (⌊x⌋ : ℚ) ≤ x := Int.floor_le x
  unfold roundHalfEvenQ
  by_cases hc1 : x - (⌊x⌋ : ℚ) < 1/2
  · simp only [hc1, if_true]
    exact ⟨hfl, hfh⟩
  · simp only [hc1, if_false]
    have hup : roundHalfEvenQ x = roundHalfEvenQ x := rfl
    by_cases hc2 : (1 : ℚ)/2 < x - (⌊x⌋ : ℚ)
    · simp only [hc2, if_true]
      refine ⟨by omega, ?_⟩
      -- x ≥ ⌊x⌋ + 1/2 strictly past the midpoint: ⌊x⌋ + 1 ≤ hi
      have : (⌊x⌋ : ℚ) + 1/2 < x := by linarith
      have hlt : (⌊x⌋ : ℚ) < (hi : ℚ) := by linarith
      have : ⌊x⌋ < hi := by exact_mod_cast hlt
      omega
    · simp only [hc2, if_false]
      have hmid : x - (⌊x⌋ : ℚ) = 1/2 := le_antisymm (not_lt.mp hc2) (not_lt.mp hc1)
      have hlt : (⌊x⌋ : ℚ) < (hi : ℚ) := by linarith
      have hfh' : ⌊x⌋ < hi := by exact_mod_cast hlt
      by_cases he : Even ⌊x⌋
      · simp only [he, if_true]
        exact ⟨hfl, hfh⟩
      · simp only [he, if_false]
        exact ⟨by omega, by omega⟩

theorem round2_bounds (x : ℚ) (h1 : 0 ≤ x) (h2 : x ≤ 100) :
    0 ≤ round2 x ∧ round2 x ≤ 100 := by
  have hb := roundHalfEvenQ_bounds (x * 100) 0 10000 (by push_cast; nlinarith) (by push_cast; nlinarith)
  unfold round2
  constructor
  · apply div_nonneg _ (by norm_num)
    exact_mod_cast hb.1
  · rw [div_le_iff (by norm_num : (0:ℚ) < 100)]
    calc ((roundHalfEvenQ (x * 100) : ℚ)) ≤ (10000 : ℚ) := by exact_mod_cast hb.2
      _ = 100 * 100 := by norm_num

/-! ### C3: score bounds after standardization -/

theorem scaleChunks_mem_bounds (chunks : List ChunkSchema)
    (hall : chunks.all (fun c => c.score.isSome) = true) :
    ∀ c ∈ scaleChunks chunks, ∃ q : ℚ, c.score = some q ∧ 0 ≤ q ∧ q ≤ 100 := by
  intro c hc
  unfold scaleChunks at hc
  rw [List.mem_map] at hc
  obtain ⟨c0, hc0, rfl⟩ := hc
  refine ⟨_, rfl, ?_⟩
  obtain ⟨s, hs⟩ : ∃ s, c0.score = some s :=
    Option.isSome_iff_exists.mp (List.all_eq_true.mp hall c0 hc0)
  have hsmem : s ∈ chunks.filterMap (fun c => c.score) :=
    List.mem_filterMap.mpr ⟨c0, hc0, hs⟩
  have hm := listMinQ_le _ s hsmem
  have hM := le_listMaxQ _ s hsmem
  rw [hs]
  simp only [Option.getD_some]
  set m := listMinQ (chunks.filterMap (fun c => c.score)) with hmdef
  set M := listMaxQ (chunks.filterMap (fun c => c.score)) with hMdef
  by_cases hr : M - m = 0
  · rw [if_pos hr]
    have hsm : s = m := le_antisymm (by linarith) hm
    have hzero : s * (100 / 1) - m * (100 / 1) = 0 := by rw [hsm]; ring
    rw [hzero]
    exact round2_bounds 0 le_rfl (by norm_num)
  · rw [if_neg hr]
    have hpos : 0 < M - m := lt_of_le_of_ne (by linarith) (Ne.symm hr)
    have hexpr : s * (100 / (M - m)) - m * (100 / (M - m)) = ((s - m) * 100) / (M - m) := by
      field_simp
      ring
    rw [hexpr]
    refine round2_bounds _ ?_ ?_
    · exact div_nonneg (by nlinarith) (le_of_lt hpos)
    · rw [div_le_iff hpos]
      nlinarith

/-- C3: for a non-empty chunk list, every score produced by
`_standardize_scores` lies in `[0, 100]`, and in the fallback branch (the
scaler raised) every score is exactly 50. -/
theorem standardize_scores_bounds (chunks : List ChunkSchema) (hne : chunks ≠ []) :
    (∀ c ∈ standardize_scores chunks, ∃ q : ℚ, c.score = some q ∧ 0 ≤ q ∧ q ≤ 100) ∧
    (chunks.all (fun c => c.score.isSome) = false →
      ∀ c ∈ standardize_scores chunks, c.score = some 50) := by
  have hemp : chunks.isEmpty = false := by
    cases chunks with
    | nil => exact absurd rfl hne
    | cons a l => rfl
  by_cases hall : chunks.all (fun c => c.score.isSome) = true
  · constructor
    · intro c hc
      rw [standardize_scores, hemp] at hc
      simp only [Bool.false_eq_true, if_false, hall, if_true] at hc
      exact scaleChunks_mem_bounds chunks hall c hc
    · intro hfalse
      rw [hall] at hfalse
      cases hfalse
  · have hallf : chunks.all (fun c => c.score.isSome) = false := Bool.of_not_eq_true hall
    have hdef : standardize_scores chunks = chunks.map (fun c => { c with score := some 50 }) := by
      rw [standardize_scores, hemp, hallf]
      simp
    constructor
    · intro c hc
      rw [hdef, List.mem_map] at hc
      obtain ⟨c0, _, rfl⟩ := hc
      exact ⟨50, rfl, by norm_num, by norm_num⟩
    · intro _ c hc
      rw [hdef, List.mem_map] at hc
      obtain ⟨c0, _, rfl⟩ := hc
      rfl

/-- Witness for `standardize_scores_bounds` at a concrete two-chunk list. -/
theorem standardize_scores_bounds_witness :
    ([(⟨"a", "0", "1", "v", some 1⟩ : ChunkSchema), ⟨"b", "1", "2", "v", some 3⟩] ≠ []) ∧
    ((∀ c ∈ standardize_scores [(⟨"a", "0", "1", "v", some 1⟩ : ChunkSchema),
        ⟨"b", "1", "2", "v", some 3⟩], ∃ q : ℚ, c.score = some q ∧ 0 ≤ q ∧ q ≤ 100) ∧
     (([(⟨"a", "0", "1", "v", some 1⟩ : ChunkSchema), ⟨"b", "1", "2", "v", some 3⟩].all
          (fun c => c.score.isSome)) = false →
      ∀ c ∈ standardize_scores [(⟨"a", "0", "1", "v", some 1⟩ : ChunkSchema),
        ⟨"b", "1", "2", "v", some 3⟩], c.score = some 50)) :=
  ⟨by decide, standardize_scores_bounds _ (by decide)⟩

/-! ### C4: the degenerate-scaling fallback -/

/-- C4 (counterexample): a single retained chunk with a finite score is NOT a
failing case of min-max scaling: sklearn's `_handle_zeros_in_scale` replaces
the zero range by 1, so the lone score standardizes to 0 — not to the
neutral default 50 the claim asserts for this case. -/
theorem standardize_single_value_counterexample :
    standardize_scores [⟨"t", "0", "1", "v", some 7⟩] = [⟨"t", "0", "1", "v", some 0⟩] ∧
    ¬ (∀ c ∈ standardize_scores [⟨"t", "0", "1", "v", some 7⟩], c.score = some 50) := by
  have h : standardize_scores [⟨"t", "0", "1", "v", some 7⟩] = [⟨"t", "0", "1", "v", some 0⟩] := by
    norm_num [standardize_scores, scaleChunks, listMinQ, listMaxQ, round2, roundHalfEvenQ,
      List.filterMap_cons, List.filterMap_nil, Int.floor_eq_iff]
  refine ⟨h, fun hall => ?_⟩
  have := hall ⟨"t", "0", "1", "v", some 0⟩ (by rw [h]; exact List.mem_singleton_self _)
  simp at this

/-! ### C7: per-batch degradation in the reranker -/

/-- C7: a batch whose scoring raises degrades to score-0 dicts carrying the
documents' original metadata plus their text; other batches are scored
independently (the rerank output is, up to the final stable sort, the
concatenation of the per-batch results), and the rerank still returns a
result list. -/
theorem rerank_error_batch (predict : Predict) (query : String) (docs : List Doc)
    (i : Nat) (e : PyErr)
    (hfail : predict (prepare_pairs query ((chunk_docs docs DEFAULT_BATCH_SIZE).getD i [])) =
      .error e)
    (hwf : ∀ d ∈ (chunk_docs docs DEFAULT_BATCH_SIZE).getD i [], DictWF d.metadata)
    (hscore : ∀ d ∈ (chunk_docs docs DEFAULT_BATCH_SIZE).getD i [],
      dGet d.metadata "score" = none)
    (hi : i < (chunk_docs docs DEFAULT_BATCH_SIZE).length) :
    (∀ d ∈ (chunk_docs docs DEFAULT_BATCH_SIZE).getD i [],
      zeroDict d ∈ rerank predict query docs ∧
      dGet (zeroDict d) "score" = some (vInt 0) ∧
      dGet (zeroDict d) "text" = some (vStr d.page_content) ∧
      (∀ k, k ≠ "score" → k ≠ "text" → dGet (zeroDict d) k = dGet d.metadata k)) ∧
    List.Perm (rerank predict query docs)
      (((chunk_docs docs DEFAULT_BATCH_SIZE).map (process_chunk predict query)).flatten) := by
  have hdocs : docs.isEmpty = false := by
    cases hd : docs with
    | nil =>
      rw [hd] at hi
      simp [chunk_docs, chunksOf, chunksOfAux] at hi
    | cons a l => rfl
  have hrw : rerank predict query docs =
      sortByDesc (fun a b => pfLt (scoreKey a) (scoreKey b))
        (((chunk_docs docs DEFAULT_BATCH_SIZE).map (process_chunk predict query)).flatten) := by
    rw [rerank, hdocs]
    simp
  constructor
  · intro d hd
    have hbatch : (chunk_docs docs DEFAULT_BATCH_SIZE).getD i [] ∈
        chunk_docs docs DEFAULT_BATCH_SIZE := by
      rw [List.getD_eq_getElem?_getD, List.getElem?_eq_getElem hi]
      exact List.getElem_mem hi
    have hpc : process_chunk predict query ((chunk_docs docs DEFAULT_BATCH_SIZE).getD i []) =
        ((chunk_docs docs DEFAULT_BATCH_SIZE).getD i []).map zeroDict := by
      rw [process_chunk, hfail]
    refine ⟨?_, ?_, ?_, ?_⟩
    · rw [hrw, mem_sortByDesc]
      rw [List.mem_flatten]
      exact ⟨_, List.mem_map_of_mem (process_chunk predict query) hbatch,
        by rw [hpc]; exact List.mem_map_of_mem zeroDict hd⟩
    · unfold zeroDict
      rw [dGet_dSet_ne _ _ _ _ (by decide),
        dGet_dSetAll_of_none _ _ _ (hscore d hd)]
      rfl
    · exact dGet_dSet_self _ _ _
    · intro k hks hkt
      unfold zeroDict
      rw [dGet_dSet_ne _ _ _ _ hkt]
      cases hg : dGet d.metadata k with
      | none =>
        rw [dGet_dSetAll_of_none _ _ _ hg]
        simp [dSet, dGet, hg, Ne.symm hks]
      | some v => exact dGet_dSetAll_of_some _ _ _ _ (hwf d hd) hg
  · rw [hrw]
    exact sortByDesc_perm _ _

/-- Witness for `rerank_error_batch`: a two-document batch whose model call
raises. -/
theorem rerank_error_batch_witness :
    ((fun _ => (.error ⟨"gpu oom"⟩ : Except PyErr (List PyFloat))) (prepare_pairs "q"
        ((chunk_docs [⟨"x", [("video_id", vStr "v")]⟩, ⟨"y", [("video_id", vStr "w")]⟩]
          DEFAULT_BATCH_SIZE).getD 0 [])) = .error ⟨"gpu oom"⟩ ∧
     0 < (chunk_docs [(⟨"x", [("video_id", vStr "v")]⟩ : Doc),
          ⟨"y", [("video_id", vStr "w")]⟩] DEFAULT_BATCH_SIZE).length) ∧
    (∀ d ∈ (chunk_docs [(⟨"x", [("video_id", vStr "v")]⟩ : Doc),
          ⟨"y", [("video_id", vStr "w")]⟩] DEFAULT_BATCH_SIZE).getD 0 [],
      zeroDict d ∈ rerank (fun _ => .error ⟨"gpu oom"⟩) "q"
        [⟨"x", [("video_id", vStr "v")]⟩, ⟨"y", [("video_id", vStr "w")]⟩] ∧
      dGet (zeroDict d) "score" = some (vInt 0) ∧
      dGet (zeroDict d) "text" = some (vStr d.page_content) ∧
      (∀ k, k ≠ "score" → k ≠ "text" → dGet (zeroDict d) k = dGet d.metadata k)) ∧
    List.Perm (rerank (fun _ => .error ⟨"gpu oom"⟩) "q"
        [⟨"x", [("video_id", vStr "v")]⟩, ⟨"y", [("video_id", vStr "w")]⟩])
      (((chunk_docs [(⟨"x", [("video_id", vStr "v")]⟩ : Doc),
          ⟨"y", [("video_id", vStr "w")]⟩] DEFAULT_BATCH_SIZE).map
        (process_chunk (fun _ => .error ⟨"gpu oom"⟩) "q")).flatten) :=
  ⟨⟨rfl, by decide⟩,
   rerank_error_batch (fun _ => .error ⟨"gpu oom"⟩) "q"
     [⟨"x", [("video_id", vStr "v")]⟩, ⟨"y", [("video_id", vStr "w")]⟩] 0 ⟨"gpu oom"⟩
     rfl (by decide) (by decide) (by decide)⟩

/-! ### C6: fusion order and first-occurrence dedup -/

theorem strContains_iff (l : List String) (s : String) : l.contains s = true ↔ s ∈ l :=
  List.elem_iff

theorem mem_of_mem_dedupAux (seen : List String) (l : List Doc) (e : Doc)
    (he : e ∈ dedupAux seen l) : e ∈ l := by
  induction l generalizing seen with
  | nil => simpa [dedupAux] using he
  | cons d ds ih =>
    by_cases hc : seen.contains d.page_content
    · rw [dedupAux, if_pos hc] at he
      exact List.mem_cons_of_mem d (ih seen he)
    · rw [dedupAux, if_neg hc] at he
      rcases List.mem_cons.mp he with rfl | he'
      · exact List.mem_cons_self _ _
      · exact List.mem_cons_of_mem d (ih _ he')

theorem dedupAux_not_mem_seen (seen : List String) (l : List Doc) :
    ∀ e ∈ dedupAux seen l, e.page_content ∉ seen := by
  induction l generalizing seen with
  | nil => simp [dedupAux]
  | cons d ds ih =>
    intro e he
    by_cases hc : seen.contains d.page_content
    · rw [dedupAux, if_pos hc] at he
      exact ih seen e he
    · rw [dedupAux, if_neg hc] at he
      rcases List.mem_cons.mp he with rfl | he'
      · exact fun hmem => hc ((strContains_iff seen e.page_content).mpr hmem)
      · intro hmem
        exact ih _ e he' (List.mem_cons_of_mem _ hmem)

theorem dedupAux_texts_nodup (seen : List String) (l : List Doc) :
    ((dedupAux seen l).map (fun d => d.page_content)).Nodup := by
  induction l generalizing seen with
  | nil => simp [dedupAux]
  | cons d ds ih =>
    by_cases hc : seen.contains d.page_content
    · rw [dedupAux, if_pos hc]
      exact ih seen
    · rw [dedupAux, if_neg hc]
      rw [List.map_cons, List.nodup_cons]
      refine ⟨?_, ih _⟩
      intro hmem
      rw [List.mem_map] at hmem
      obtain ⟨e, he, het⟩ := hmem
      exact dedupAux_not_mem_seen _ _ e he (by rw [het]; exact List.mem_cons_self _ _)

theorem dedupAux_first_priority (seen : List String) (l1 l2 : List Doc) (t : String)
    (ht : ∃ d ∈ l1, d.page_content = t) :
    ∀ e ∈ dedupAux seen (l1 ++ l2), e.page_content = t → e ∈ l1 := by
  induction l1 generalizing seen with
  | nil => simp at ht
  | cons d ds ih =>
    intro e he het
    rw [List.cons_append] at he
    by_cases hc : seen.contains d.page_content
    · rw [dedupAux, if_pos hc] at he
      by_cases hdt : d.page_content = t
      · exact absurd ((strContains_iff _ _).mp (het ▸ hdt ▸ hc))
          (dedupAux_not_mem_seen _ _ e he ∘ (het ▸ id))
      · obtain ⟨w, hw, hwt⟩ := ht
        rcases List.mem_cons.mp hw with rfl | hw'
        · exact absurd hwt hdt
        · exact List.mem_cons_of_mem d (ih seen ⟨w, hw', hwt⟩ e he het)
    · rw [dedupAux, if_neg hc] at he
      rcases List.mem_cons.mp he with rfl | he'
      · exact List.mem_cons_self _ _
      · by_cases hdt : d.page_content = t
        · exact absurd (by simp [het, hdt])
            (dedupAux_not_mem_seen _ _ e he')
        · obtain ⟨w, hw, hwt⟩ := ht
          rcases List.mem_cons.mp hw with rfl | hw'
          · exact absurd hwt hdt
          · exact List.mem_cons_of_mem d (ih _ ⟨w, hw', hwt⟩ e he' het)

/-- C6: dense (similarity) hits precede sparse (keyword) hits through
enrichment, and first-occurrence dedup by exact text therefore keeps the
dense hit: any surviving element whose text also occurs among the enriched
dense hits IS a dense hit; and after dedup each text occurs exactly once. -/
theorem fusion_dense_priority (video_map : Dict VideoInfo) (sim kw : List Doc) (t : String)
    (hd : ∃ d ∈ enrich_results video_map sim, d.page_content = t) :
    (enrich_results video_map (sim ++ kw) =
      enrich_results video_map sim ++ enrich_results video_map kw) ∧
    (∀ e ∈ dedupByText (enrich_results video_map sim ++ enrich_results video_map kw),
      e.page_content = t → e ∈ enrich_results video_map sim) ∧
    ((dedupByText (enrich_results video_map sim ++ enrich_results video_map kw)).map
      (fun d => d.page_content)).Nodup := by
  refine ⟨List.filterMap_append _ _ _, ?_, dedupAux_texts_nodup [] _⟩
  exact dedupAux_first_priority [] _ _ t hd

/-- Witness for `fusion_dense_priority`: a dense hit and a sparse hit with
the same text. -/
theorem fusion_dense_priority_witness :
    (∃ d ∈ enrich_results [("v1", ⟨"v1", "T", "th", "2024", "ch"⟩)]
        [⟨"dup", [("video_id", vStr "v1")]⟩], d.page_content = "dup") ∧
    (enrich_results [("v1", ⟨"v1", "T", "th", "2024", "ch"⟩)]
        ([⟨"dup", [("video_id", vStr "v1")]⟩] ++ [⟨"dup", [("video_id", vStr "v1"), ("src", vStr "kw")]⟩]) =
      enrich_results [("v1", ⟨"v1", "T", "th", "2024", "ch"⟩)] [⟨"dup", [("video_id", vStr "v1")]⟩] ++
      enrich_results [("v1", ⟨"v1", "T", "th", "2024", "ch"⟩)]
        [⟨"dup", [("video_id", vStr "v1"), ("src", vStr "kw")]⟩]) ∧
    (∀ e ∈ dedupByText (enrich_results [("v1", ⟨"v1", "T", "th", "2024", "ch"⟩)]
          [⟨"dup", [("video_id", vStr "v1")]⟩] ++
        enrich_results [("v1", ⟨"v1", "T", "th", "2024", "ch"⟩)]
          [⟨"dup", [("video_id", vStr "v1"), ("src", vStr "kw")]⟩]),
      e.page_content = "dup" →
        e ∈ enrich_results [("v1", ⟨"v1", "T", "th", "2024", "ch"⟩)]
          [⟨"dup", [("video_id", vStr "v1")]⟩]) ∧
    ((dedupByText (enrich_results [("v1", ⟨"v1", "T", "th", "2024", "ch"⟩)]
          [⟨"dup", [("video_id", vStr "v1")]⟩] ++
        enrich_results [("v1", ⟨"v1", "T", "th", "2024", "ch"⟩)]
          [⟨"dup", [("video_id", vStr "v1"), ("src", vStr "kw")]⟩])).map
      (fun d => d.page_content)).Nodup :=
  ⟨⟨⟨"dup", [("video_id", vStr "v1"), ("video", vVideo ⟨"v1", "T", "th", "2024", "ch"⟩)]⟩,
     by decide, rfl⟩,
   fusion_dense_priority _ _ _ "dup"
     ⟨⟨"dup", [("video_id", vStr "v1"), ("video", vVideo ⟨"v1", "T", "th", "2024", "ch"⟩)]⟩,
      by decide, rfl⟩⟩

/-! ### C9: top-video selection -/

theorem mem_dedupFirst (l : List PyVal) (a : PyVal) : a ∈ dedupFirst l ↔ a ∈ l := by
  induction l with
  | nil => simp [dedupFirst]
  | cons x xs ih =>
    simp only [dedupFirst, List.mem_cons, List.mem_filter]
    constructor
    · rintro (rfl | ⟨ha, _⟩)
      · exact Or.inl rfl
      · exact Or.inr (ih.mp ha)
    · rintro (rfl | ha)
      · exact Or.inl rfl
      · by_cases hax : a = x
        · exact Or.inl hax
        · exact Or.inr ⟨ih.mpr ha, by simpa using hax⟩

theorem dedupFirst_filter (l : List PyVal) (q : PyVal → Bool) :
    dedupFirst (l.filter q) = (dedupFirst l).filter q := by
  induction l with
  | nil => simp [dedupFirst]
  | cons x xs ih =>
    by_cases hq : q x
    · rw [List.filter_cons_of_pos hq]
      simp only [dedupFirst, List.filter_cons_of_pos hq, ih]
      rw [List.filter_filter, List.filter_filter]
      exact congrArg (x :: ·) (List.filter_congr (fun a _ => Bool.and_comm _ _))
    · rw [List.filter_cons_of_neg (by simpa using hq)]
      simp only [dedupFirst, List.filter_cons_of_neg (by simpa using hq), ih]
      rw [List.filter_filter]
      apply List.filter_congr
      intro a _
      by_cases hqa : q a
      · have hax : a ≠ x := fun h => hq (h ▸ hqa)
        simp [hqa, hax]
      · simp [hqa]

theorem any_congr_mem (l : List β) (f g : β → Bool) (h : ∀ b ∈ l, f b = g b) :
    l.any f = l.any g := by
  induction l with
  | nil => rfl
  | cons x xs ih =>
    simp only [List.any_cons]
    rw [h x (List.mem_cons_self x xs), ih (fun b hb => h b (List.mem_cons_of_mem x hb))]

theorem bump_any_key (acc : List (PyVal × Nat)) (v x : PyVal) :
    (bump acc v).any (fun p => p.1 = x) =
      (acc.any (fun p => p.1 = x) || decide (v = x)) := by
  by_cases hany : acc.any (fun p => p.1 = v)
  · rw [bump, if_pos hany, List.any_map]
    have hpt : ∀ p ∈ acc,
        ((fun p => decide (p.1 = x)) ∘ fun p => if p.1 = v then (p.1, p.2 + 1) else p) p =
          decide (p.1 = x) := by
      intro p _
      by_cases hp : p.1 = v <;> simp [hp]
    rw [any_congr_mem _ _ _ hpt]
    by_cases hvx : v = x
    · subst hvx
      simp only [decide_True, Bool.or_true]
      exact hany
    · simp [hvx]
  · rw [bump, if_neg hany, List.any_append]
    simp

theorem counterAux_eq (acc : List (PyVal × Nat)) (vs : List PyVal) :
    counterAux acc vs =
      acc.map (fun p => (p.1, p.2 + vs.count p.1)) ++
        (dedupFirst (vs.filter (fun v => !(acc.any (fun p => p.1 = v))))).map
          (fun v => (v, vs.count v)) := by
  induction vs generalizing acc with
  | nil =>
    simp [counterAux, dedupFirst, List.count_nil]
  | cons v vs ih =>
    rw [counterAux, ih (bump acc v)]
    have hfiltcond : ∀ x ∈ vs,
        (!(bump acc v).any (fun p => p.1 = x)) =
          ((!acc.any (fun p => p.1 = x)) && !(decide (v = x))) := by
      intro x _
      rw [bump_any_key]
      cases acc.any (fun p => p.1 = x) <;> cases hd : decide (v = x) <;> simp
    rw [List.filter_congr hfiltcond]
    by_cases hany : acc.any (fun p => p.1 = v)
    · -- the id is already counted: bump increments it in place
      have hmap : (bump acc v).map (fun p => (p.1, p.2 + vs.count p.1)) =
          acc.map (fun p => (p.1, p.2 + (v :: vs).count p.1)) := by
        rw [bump, if_pos hany, List.map_map]
        apply List.map_congr_left
        intro p _
        by_cases hp : p.1 = v
        · simp only [Function.comp_apply, if_pos hp, List.count_cons, hp, Prod.mk.injEq,
            beq_self_eq_true, if_true, true_and]
          omega
        · simp only [Function.comp_apply, if_neg hp, List.count_cons, Prod.mk.injEq, true_and]
          simp [hp, Ne.symm hp]
      rw [hmap]
      have hcondv : (!acc.any (fun p => p.1 = v)) = false := by simpa using hany
      have hfv : (v :: vs).filter (fun x => !acc.any (fun p => p.1 = x)) =
          vs.filter (fun x => !acc.any (fun p => p.1 = x)) :=
        List.filter_cons_of_neg (by simp [hcondv])
      rw [hfv]
      congr 1
      have hfilt2 : vs.filter (fun x => (!acc.any (fun p => p.1 = x)) && !(decide (v = x))) =
          vs.filter (fun x => !acc.any (fun p => p.1 = x)) := by
        apply List.filter_congr
        intro x _
        by_cases hvx : v = x
        · subst hvx
          simp [hcondv]
        · simp [hvx]
      rw [hfilt2]
      apply List.map_congr_left
      intro x hx
      have hx' := (mem_dedupFirst _ x).mp hx
      have hxv : x ≠ v := by
        intro hxv
        subst hxv
        have := (List.mem_filter.mp hx').2
        rw [hcondv] at this
        exact absurd this (by simp)
      simp [List.count_cons, hxv]
    · -- a new id: bump appends (v, 1)
      have hnot : ∀ p ∈ acc, ¬ (p.1 = v) := by
        intro p hp hpv
        exact hany (List.any_eq_true.mpr ⟨p, hp, by simpa using hpv⟩)
      have hcondv : (!acc.any (fun p => p.1 = v)) = true := by
        simp only [Bool.not_eq_true']
        rw [Bool.eq_false_iff]
        intro h
        exact hany h
      have hfv : (v :: vs).filter (fun x => !acc.any (fun p => p.1 = x)) =
          v :: vs.filter (fun x => !acc.any (fun p => p.1 = x)) :=
        List.filter_cons_of_pos hcondv
      rw [bump, if_neg hany, List.map_append, hfv]
      have hded : dedupFirst (v :: vs.filter (fun x => !acc.any (fun p => p.1 = x))) =
          v :: (dedupFirst (vs.filter (fun x => !acc.any (fun p => p.1 = x)))).filter
            (fun x => x ≠ v) := rfl
      rw [hded]
      simp only [List.map_cons]
      have haccmap : acc.map (fun p => (p.1, p.2 + (v :: vs).count p.1)) =
          acc.map (fun p => (p.1, p.2 + vs.count p.1)) := by
        apply List.map_congr_left
        intro p hp
        simp [List.count_cons, hnot p hp]
      have hh : (v, (v :: vs).count v) = (v, 1 + vs.count v) := by
        simp only [List.count_cons, Prod.mk.injEq, beq_self_eq_true, if_true, true_and]
        omega
      have htail : ((dedupFirst (vs.filter (fun x => !acc.any (fun p => p.1 = x)))).filter
            (fun x => x ≠ v)).map (fun x => (x, (v :: vs).count x)) =
          (dedupFirst (vs.filter (fun x =>
            (!acc.any (fun p => p.1 = x)) && !(decide (v = x))))).map
            (fun x => (x, vs.count x)) := by
        rw [← dedupFirst_filter]
        have hfilts : (vs.filter (fun x => !acc.any (fun p => p.1 = x))).filter
              (fun x => x ≠ v) =
            vs.filter (fun x => (!acc.any (fun p => p.1 = x)) && !(decide (v = x))) := by
          rw [List.filter_filter]
          apply List.filter_congr
          intro a _
          have h2 : (decide (a ≠ v)) = (!decide (v = a)) := by
            rw [decide_not]
            exact congrArg (! ·) (decide_eq_decide.mpr ⟨fun h => h.symm, fun h => h.symm⟩)
          rw [h2]
          exact Bool.and_comm _ _
        rw [hfilts]
        apply List.map_congr_left
        intro x hx
        have hx' := (mem_dedupFirst _ x).mp hx
        have hxv : x ≠ v := by
          intro hxv
          subst hxv
          have := (List.mem_filter.mp hx').2
          simp at this
        simp [List.count_cons, hxv]
      rw [haccmap, hh, htail]
      simp

theorem counter_items_eq (ids : List PyVal) :
    counter_items ids = (dedupFirst ids).map (fun v => (v, ids.count v)) := by
  rw [counter_items, counterAux_eq]
  simp

/-- C9: top-video selection counts `video_id` occurrences over the valid
results and takes the five most frequent, ties resolved in favour of the
first-encountered id: it equals the spec-side stable descending sort of the
first-encounter-ordered (id, count) pairs; at most five ids are selected; and
every selected id's count dominates the count of every unselected id. -/
theorem most_common_video_ids_spec (valid : List (Dict PyVal)) :
    most_common_video_ids valid = spec_top_video_ids (valid.map video_id_of) ∧
    (most_common_video_ids valid).length ≤ 5 ∧
    (∀ b ∈ most_common_video_ids valid, ∀ a ∈ valid.map video_id_of,
      a ∉ most_common_video_ids valid →
      (valid.map video_id_of).count a ≤ (valid.map video_id_of).count b) := by
  have heq : most_common_video_ids valid = spec_top_video_ids (valid.map video_id_of) := by
    rw [most_common_video_ids, spec_top_video_ids, counter_items_eq]
  refine ⟨heq, ?_, ?_⟩
  · rw [most_common_video_ids, List.length_map]
    exact le_trans (List.length_take_le 5 _) le_rfl
  · intro b hb a ha hna
    rw [most_common_video_ids] at hb hna
    have hitems : ∀ p ∈ counter_items (valid.map video_id_of),
        p.2 = (valid.map video_id_of).count p.1 := by
      intro p hp
      rw [counter_items_eq] at hp
      obtain ⟨x, _, rfl⟩ := List.mem_map.mp hp
      rfl
    have hpa : ((a, (valid.map video_id_of).count a) : PyVal × Nat) ∈
        counter_items (valid.map video_id_of) := by
      rw [counter_items_eq]
      exact List.mem_map.mpr ⟨a, (mem_dedupFirst _ a).mpr ha, rfl⟩
    obtain ⟨pb, hpbtake, hpb1⟩ := List.mem_map.mp hb
    have hpbsorted : pb ∈ sortByDesc (fun p q : PyVal × Nat => p.2 < q.2)
        (counter_items (valid.map video_id_of)) := List.mem_of_mem_take hpbtake
    have hpbitems : pb ∈ counter_items (valid.map video_id_of) :=
      (mem_sortByDesc _ _ pb).mp hpbsorted
    have hpb2 : pb.2 = (valid.map video_id_of).count b := by
      rw [hitems pb hpbitems, hpb1]
    have hpasorted : ((a, (valid.map video_id_of).count a) : PyVal × Nat) ∈
        sortByDesc (fun p q : PyVal × Nat => p.2 < q.2)
          (counter_items (valid.map video_id_of)) :=
      (mem_sortByDesc _ _ _).mpr hpa
    have hpasplit : ((a, (valid.map video_id_of).count a) : PyVal × Nat) ∈
        (sortByDesc (fun p q : PyVal × Nat => p.2 < q.2)
          (counter_items (valid.map video_id_of))).take 5 ++
        (sortByDesc (fun p q : PyVal × Nat => p.2 < q.2)
          (counter_items (valid.map video_id_of))).drop 5 := by
      rw [List.take_append_drop]
      exact hpasorted
    have hpadrop : ((a, (valid.map video_id_of).count a) : PyVal × Nat) ∈
        (sortByDesc (fun p q : PyVal × Nat => p.2 < q.2)
          (counter_items (valid.map video_id_of))).drop 5 := by
      rcases List.mem_append.mp hpasplit with hin | hin
      · exact absurd (List.mem_map.mpr ⟨_, hin, rfl⟩) hna
      · exact hin
    have hpw := sortByDesc_pairwise (fun p q : PyVal × Nat => p.2 < q.2)
      (counter_items (valid.map video_id_of))
      (fun x _ y _ h => by simp at h ⊢; omega)
      (fun x _ y _ z _ h1 h2 => by simp at h1 h2 ⊢; omega)
    rw [← List.take_append_drop 5 (sortByDesc (fun p q : PyVal × Nat => p.2 < q.2)
      (counter_items (valid.map video_id_of)))] at hpw
    have hrel := (List.pairwise_append.mp hpw).2.2 pb hpbtake _ hpadrop
    simp only [decide_eq_false_iff_not, not_lt] at hrel
    rw [hpb2] at hrel
    exact hrel

/-! ### Pipeline reachability lemmas -/

theorem dHas_iff_isSome (d : Dict α) (k : String) :
    dHas d k = true ↔ (dGet d k).isSome := by
  induction d with
  | nil => simp [dHas, dGet]
  | cons p rest ih =>
    by_cases hp : p.1 = k <;> simp [dHas, dGet, hp, ih]

theorem minimise_chunks_ok (rs : List (Dict PyVal))
    (h : ∀ r ∈ rs, requiredKeys.all (fun k => dHas r k) = true → ∃ c, mkChunk r = .ok c) :
    ∃ cs, minimise_chunks rs = .ok cs := by
  induction rs with
  | nil => exact ⟨[], rfl⟩
  | cons r rest ih =>
    obtain ⟨cs, hcs⟩ := ih (fun r' hr' => h r' (List.mem_cons_of_mem r hr'))
    by_cases hall : requiredKeys.all (fun k => dHas r k) = true
    · obtain ⟨c, hc⟩ := h r (List.mem_cons_self r rest) hall
      exact ⟨c :: cs, by simp [minimise_chunks, hall, hc, hcs]⟩
    · exact ⟨cs, by simp [minimise_chunks, hall, hcs]⟩

theorem minimise_chunks_mem (rs : List (Dict PyVal)) (cs : List ChunkSchema)
    (h : minimise_chunks rs = .ok cs) :
    ∀ c ∈ cs, ∃ r ∈ rs, requiredKeys.all (fun k => dHas r k) = true ∧ mkChunk r = .ok c := by
  induction rs generalizing cs with
  | nil =>
    simp only [minimise_chunks] at h
    cases h
    simp
  | cons r rest ih =>
    by_cases hall : requiredKeys.all (fun k => dHas r k) = true
    · rw [minimise_chunks, if_pos hall] at h
      cases hmk : mkChunk r with
      | error e => rw [hmk] at h; cases h
      | ok c0 =>
        rw [hmk] at h
        cases hrest : minimise_chunks rest with
        | error e => rw [hrest] at h; cases h
        | ok cs0 =>
          rw [hrest] at h
          cases h
          intro c hc
          rcases List.mem_cons.mp hc with rfl | hc'
          · exact ⟨r, List.mem_cons_self r rest, hall, hmk⟩
          · obtain ⟨r', hr', hprops⟩ := ih cs0 hrest c hc'
            exact ⟨r', List.mem_cons_of_mem r hr', hprops⟩
    · rw [minimise_chunks, if_neg hall] at h
      intro c hc
      obtain ⟨r', hr', hprops⟩ := ih cs h c hc
      exact ⟨r', List.mem_cons_of_mem r hr', hprops⟩

theorem standardize_all_some (chunks : List ChunkSchema) :
    ∀ c ∈ standardize_scores chunks, c.score.isSome := by
  intro c hc
  rw [standardize_scores] at hc
  by_cases hemp : chunks.isEmpty
  · rw [if_pos hemp] at hc
    rw [List.isEmpty_iff.mp hemp] at hc
    simp at hc
  · rw [if_neg hemp] at hc
    by_cases hall : chunks.all (fun c => c.score.isSome)
    · rw [if_pos hall] at hc
      unfold scaleChunks at hc
      obtain ⟨c0, _, rfl⟩ := List.mem_map.mp hc
      rfl
    · rw [if_neg hall] at hc
      obtain ⟨c0, _, rfl⟩ := List.mem_map.mp hc
      rfl

theorem standardize_mem_src (chunks : List ChunkSchema) :
    ∀ c ∈ standardize_scores chunks, ∃ c0 ∈ chunks,
      c.videoId = c0.videoId ∧ c.text = c0.text := by
  intro c hc
  rw [standardize_scores] at hc
  by_cases hemp : chunks.isEmpty
  · rw [if_pos hemp] at hc
    exact ⟨c, hc, rfl, rfl⟩
  · rw [if_neg hemp] at hc
    by_cases hall : chunks.all (fun c => c.score.isSome)
    · rw [if_pos hall] at hc
      unfold scaleChunks at hc
      obtain ⟨c0, hc0, rfl⟩ := List.mem_map.mp hc
      exact ⟨c0, hc0, rfl, rfl⟩
    · rw [if_neg hall] at hc
      obtain ⟨c0, hc0, rfl⟩ := List.mem_map.mp hc
      exact ⟨c0, hc0, rfl, rfl⟩

theorem enrich_results_ok (vm : Dict VideoInfo) (combined : List Doc) :
    ∀ e ∈ enrich_results vm combined,
      ∃ d0 ∈ combined, e.page_content = d0.page_content ∧
        (∃ info, e.metadata = dSet d0.metadata "video" (vVideo info)) ∧
        ∃ s, dGet e.metadata "video_id" = some (vStr s) ∧ s ≠ "" ∧
          ∃ info', dGet vm s = some info' := by
  intro e he
  rw [enrich_results, List.mem_filterMap] at he
  obtain ⟨d0, hd0, hmk⟩ := he
  simp only at hmk
  by_cases ht : ((dGet d0.metadata "video_id").getD vNone).truthy
  · rw [if_pos ht] at hmk
    cases hv : (dGet d0.metadata "video_id").getD vNone with
    | vStr s =>
      rw [hv] at hmk
      have hmk' : (match dGet vm s with
          | some video =>
            some (⟨d0.page_content, dSet d0.metadata "video" (vVideo video)⟩ : Doc)
          | none => none) = some e := hmk
      cases hlook : dGet vm s with
      | none => rw [hlook] at hmk'; cases hmk'
      | some video =>
        rw [hlook] at hmk'
        cases hmk' 
        have hget : dGet d0.metadata "video_id" = some (vStr s) := by
          cases hg : dGet d0.metadata "video_id" with
          | none => rw [hg] at hv; cases hv
          | some v => rw [hg] at hv; simp at hv; rw [hv]
        have hs : s ≠ "" := by
          rw [hv] at ht
          simpa [PyVal.truthy] using ht
        refine ⟨d0, hd0, rfl, ⟨video, rfl⟩, s, ?_, hs, video, hlook⟩
        show dGet (dSet d0.metadata "video" (vVideo video)) "video_id" = some (vStr s)
        rw [dGet_dSet_ne _ _ _ _ (by decide)]
        exact hget
    | vInt n => rw [hv] at hmk; cases hmk
    | vFloat q => rw [hv] at hmk; cases hmk
    | vNan => rw [hv] at hmk; cases hmk
    | vNone => rw [hv] at hmk; cases hmk
    | vVideo v => rw [hv] at hmk; cases hmk
  · rw [if_neg ht] at hmk
    cases hmk

theorem enrich_results_wf (vm : Dict VideoInfo) (combined : List Doc)
    (hwf : ∀ d ∈ combined, DictWF d.metadata) :
    ∀ e ∈ enrich_results vm combined, DictWF e.metadata := by
  intro e he
  obtain ⟨d0, hd0, _, ⟨info, hmd⟩, _⟩ := enrich_results_ok vm combined e he
  rw [hmd]
  exact dSet_wf _ _ _ (hwf d0 hd0)

theorem mem_chunksOfAux (n fuel : Nat) (l : List α) (b : List α)
    (hb : b ∈ chunksOfAux n fuel l) : ∀ x ∈ b, x ∈ l := by
  induction fuel generalizing l with
  | zero => simp [chunksOfAux] at hb
  | succ f ih =>
    cases l with
    | nil => simp [chunksOfAux] at hb
    | cons a as =>
      rw [chunksOfAux] at hb
      rcases List.mem_cons.mp hb with rfl | hb'
      · exact fun x hx => List.mem_of_mem_take hx
      · intro x hx
        exact List.mem_of_mem_drop (ih _ hb' x hx)

theorem mem_chunk_docs (docs : List Doc) (size : Nat) (b : List Doc)
    (hb : b ∈ chunk_docs docs size) : ∀ x ∈ b, x ∈ docs :=
  mem_chunksOfAux size docs.length docs b hb

theorem zeroDict_shape (d : Doc) (hwf : DictWF d.metadata) :
    dGet (zeroDict d) "text" = some (vStr d.page_content) ∧
    (∀ k, k ≠ "text" → k ≠ "score" → dGet (zeroDict d) k = dGet d.metadata k) ∧
    (dGet d.metadata "score" = none → dGet (zeroDict d) "score" = some (vInt 0)) := by
  refine ⟨dGet_dSet_self _ _ _, ?_, ?_⟩
  · intro k hkt hks
    unfold zeroDict
    rw [dGet_dSet_ne _ _ _ _ hkt]
    cases hg : dGet d.metadata k with
    | none =>
      rw [dGet_dSetAll_of_none _ _ _ hg]
      simp [dSet, dGet, Ne.symm hks]
    | some v => exact dGet_dSetAll_of_some _ _ _ _ hwf hg
  · intro hsc
    unfold zeroDict
    rw [dGet_dSet_ne _ _ _ _ (by decide), dGet_dSetAll_of_none _ _ _ hsc]
    rfl

theorem rankedDict_shape (d : Doc) (s : PyFloat) (hwf : DictWF d.metadata) :
    dGet (rankedDict d s) "text" = some (vStr d.page_content) ∧
    (∀ k, k ≠ "text" → k ≠ "score" → dGet (rankedDict d s) k = dGet d.metadata k) ∧
    (dGet d.metadata "score" = none → dGet (rankedDict d s) "score" = some (pyOfFloat s)) := by
  refine ⟨dGet_dSet_self _ _ _, ?_, ?_⟩
  · intro k hkt hks
    unfold rankedDict
    rw [dGet_dSet_ne _ _ _ _ hkt]
    cases hg : dGet d.metadata k with
    | none =>
      rw [dGet_dSetAll_of_none _ _ _ hg]
      simp [dSet, dGet, Ne.symm hks]
    | some v => exact dGet_dSetAll_of_some _ _ _ _ hwf hg
  · intro hsc
    unfold rankedDict
    rw [dGet_dSet_ne _ _ _ _ (by decide), dGet_dSetAll_of_none _ _ _ hsc]
    rfl

/-- Every dict produced by the reranker comes from one of the input documents
and carries its text, metadata (outside `text`/`score`) and a numeric score. -/
theorem rerank_mem_shape (predict : Predict) (query : String) (docs : List Doc)
    (hwf : ∀ d ∈ docs, DictWF d.metadata) :
    ∀ r ∈ rerank predict query docs, ∃ d ∈ docs,
      dGet r "text" = some (vStr d.page_content) ∧
      (∀ k, k ≠ "text" → k ≠ "score" → dGet r k = dGet d.metadata k) ∧
      (dGet d.metadata "score" = none → ∃ v, dGet r "score" = some v ∧
        (v = vInt 0 ∨ v = vNan ∨ ∃ q, v = vFloat q)) := by
  intro r hr
  rw [rerank] at hr
  by_cases hemp : docs.isEmpty
  · rw [if_pos hemp] at hr
    simp at hr
  · rw [if_neg hemp] at hr
    rw [mem_sortByDesc, List.mem_flatten] at hr
    obtain ⟨part, hpart, hrpart⟩ := hr
    obtain ⟨batch, hbatch, rfl⟩ := List.mem_map.mp hpart
    have hsub : ∀ x ∈ batch, x ∈ docs := mem_chunk_docs docs DEFAULT_BATCH_SIZE batch hbatch
    rw [process_chunk] at hrpart
    cases hp : predict (prepare_pairs query batch) with
    | error e =>
      rw [hp] at hrpart
      obtain ⟨d, hd, rfl⟩ := List.mem_map.mp hrpart
      have hz := zeroDict_shape d (hwf d (hsub d hd))
      exact ⟨d, hsub d hd, hz.1, hz.2.1,
        fun hsc => ⟨vInt 0, hz.2.2 hsc, Or.inl rfl⟩⟩
    | ok scores =>
      rw [hp] at hrpart
      have hrpart' : r ∈ (if scores.length = batch.length then
          (batch.zip scores).map (fun p => rankedDict p.1 p.2)
        else batch.map zeroDict) := hrpart
      by_cases hlen : scores.length = batch.length
      · rw [if_pos hlen] at hrpart'
        obtain ⟨⟨d, s⟩, hds, rfl⟩ := List.mem_map.mp hrpart' 
        have hd : d ∈ batch := (List.of_mem_zip hds).1
        have hz := rankedDict_shape d s (hwf d (hsub d hd))
        refine ⟨d, hsub d hd, hz.1, hz.2.1, fun hsc => ⟨pyOfFloat s, hz.2.2 hsc, ?_⟩⟩
        cases s with
        | none => exact Or.inr (Or.inl rfl)
        | some q => exact Or.inr (Or.inr ⟨q, rfl⟩)
      · rw [if_neg hlen] at hrpart'
        obtain ⟨d, hd, rfl⟩ := List.mem_map.mp hrpart'
        have hz := zeroDict_shape d (hwf d (hsub d hd))
        exact ⟨d, hsub d hd, hz.1, hz.2.1,
          fun hsc => ⟨vInt 0, hz.2.2 hsc, Or.inl rfl⟩⟩

theorem fallback_mem_shape (enriched : List Doc)
    (hwf : ∀ d ∈ enriched, DictWF d.metadata) :
    ∀ r ∈ fallback_results enriched, ∃ d ∈ enriched,
      dGet r "video_id" = some ((dGet d.metadata "video_id").getD vNone) ∧
      (∀ k, k ≠ "content" → k ≠ "video_id" → k ≠ "score" → dGet r k = dGet d.metadata k) ∧
      (dGet d.metadata "score" = none → dGet r "score" = some (vFloat (1/2))) := by
  intro r hr
  rw [fallback_results] at hr
  obtain ⟨d, hd10, rfl⟩ := List.mem_map.mp hr
  have hd : d ∈ enriched := List.mem_of_mem_take hd10
  refine ⟨d, hd, ?_, ?_, ?_⟩
  · cases hg : dGet d.metadata "video_id" with
    | some v =>
      rw [dGet_dSetAll_of_some _ _ _ _ (hwf d hd) hg]
      simp [hg]
    | none =>
      rw [dGet_dSetAll_of_none _ _ _ hg]
      simp [dSet, dGet, hg]
  · intro k hk1 hk2 hk3
    cases hg : dGet d.metadata k with
    | some v => exact dGet_dSetAll_of_some _ _ _ _ (hwf d hd) hg
    | none =>
      rw [dGet_dSetAll_of_none _ _ _ hg]
      simp [dSet, dGet, hg, Ne.symm hk1, Ne.symm hk2, Ne.symm hk3]
  · intro hsc
    rw [dGet_dSetAll_of_none _ _ _ hsc]
    simp [dSet, dGet]

theorem reranked_good (env : SearchEnv) (query : String) (vm : Dict VideoInfo)
    (combined : List Doc) (hwf : ∀ d ∈ combined, DictWF d.metadata) :
    ∀ r ∈ reranked_results env query (dedupByText (enrich_results vm combined)),
      ∃ s, dGet r "video_id" = some (vStr s) ∧ s ≠ "" ∧ ∃ info, dGet vm s = some info := by
  have hewf : ∀ d ∈ dedupByText (enrich_results vm combined), DictWF d.metadata :=
    fun d hd => enrich_results_wf vm combined hwf d (mem_of_mem_dedupAux [] _ d hd)
  have hgood : ∀ d ∈ dedupByText (enrich_results vm combined),
      ∃ s, dGet d.metadata "video_id" = some (vStr s) ∧ s ≠ "" ∧
        ∃ info, dGet vm s = some info := by
    intro d hd
    obtain ⟨d0, hd0, _, _, s, hs, hsne, info, hinfo⟩ :=
      enrich_results_ok vm combined d (mem_of_mem_dedupAux [] _ d hd)
    exact ⟨s, hs, hsne, info, hinfo⟩
  intro r hr
  rw [reranked_results] at hr
  cases hrr : env.rerankRaises with
  | some e =>
    rw [hrr] at hr
    obtain ⟨d, hd, hvid, _, _⟩ := fallback_mem_shape _ hewf r hr
    obtain ⟨s, hs, hsne, info, hinfo⟩ := hgood d hd
    rw [hs] at hvid
    exact ⟨s, by simpa using hvid, hsne, info, hinfo⟩
  | none =>
    rw [hrr] at hr
    simp only at hr
    by_cases hre : (rerank env.predict query (dedupByText (enrich_results vm combined))).isEmpty
    · rw [if_pos hre] at hr
      obtain ⟨d, hd, hvid, _, _⟩ := fallback_mem_shape _ hewf r hr
      obtain ⟨s, hs, hsne, info, hinfo⟩ := hgood d hd
      rw [hs] at hvid
      exact ⟨s, by simpa using hvid, hsne, info, hinfo⟩
    · rw [if_neg hre] at hr
      obtain ⟨d, hd, _, hks, _⟩ := rerank_mem_shape env.predict query _ hewf r hr
      obtain ⟨s, hs, hsne, info, hinfo⟩ := hgood d hd
      rw [hks "video_id" (by decide) (by decide), hs]
      exact ⟨s, rfl, hsne, info, hinfo⟩

theorem normalize_of_has (r : Dict PyVal) (v : PyVal) (h : dGet r "video_id" = some v) :
    normalize_video_id r = r := by
  rw [normalize_video_id]
  have hhas : dHas r "video_id" = true := (dHas_iff_isSome r "video_id").mpr (by rw [h]; rfl)
  rw [hhas]
  simp

theorem valid_dicts_good (env : SearchEnv) (query : String) (vm : Dict VideoInfo)
    (combined : List Doc) (hwf : ∀ d ∈ combined, DictWF d.metadata) :
    ∀ r ∈ (valid_results0 (reranked_results env query
        (dedupByText (enrich_results vm combined)))).map normalize_video_id,
      ∃ s, dGet r "video_id" = some (vStr s) ∧ s ≠ "" ∧ ∃ info, dGet vm s = some info := by
  intro r hr
  obtain ⟨r0, hr0, rfl⟩ := List.mem_map.mp hr
  have hr0' : r0 ∈ reranked_results env query (dedupByText (enrich_results vm combined)) :=
    List.mem_of_mem_filter hr0
  obtain ⟨s, hs, hsne, info, hinfo⟩ := reranked_good env query vm combined hwf r0 hr0'
  rw [normalize_of_has r0 _ hs]
  exact ⟨s, hs, hsne, info, hinfo⟩

theorem reranked_typable (env : SearchEnv) (query : String) (vm : Dict VideoInfo)
    (combined : List Doc) (hdocs : ∀ d ∈ combined, docMdOk d) :
    ∀ r ∈ reranked_results env query (dedupByText (enrich_results vm combined)),
      (∀ v, dGet r "text" = some v → ∃ s, v = vStr s) ∧
      (∃ v, dGet r "score" = some v ∧ (v.asFloat?).isSome) := by
  have hwf : ∀ d ∈ combined, DictWF d.metadata := fun d hd => (hdocs d hd).1
  have hewf : ∀ d ∈ dedupByText (enrich_results vm combined), DictWF d.metadata :=
    fun d hd => enrich_results_wf vm combined hwf d (mem_of_mem_dedupAux [] _ d hd)
  have henr : ∀ d ∈ dedupByText (enrich_results vm combined),
      (∀ v, dGet d.metadata "text" = some v → ∃ s, v = vStr s) ∧
        dGet d.metadata "score" = none := by
    intro d hd
    obtain ⟨d0, hd0, _, ⟨info, hmd⟩, _⟩ :=
      enrich_results_ok vm combined d (mem_of_mem_dedupAux [] _ d hd)
    rw [hmd]
    refine ⟨?_, ?_⟩
    · intro v hv
      exact (hdocs d0 hd0).2.1 v (by rwa [dGet_dSet_ne _ _ _ _ (by decide)] at hv)
    · rw [dGet_dSet_ne _ _ _ _ (by decide)]
      exact (hdocs d0 hd0).2.2
  intro r hr
  rw [reranked_results] at hr
  have hfallback : r ∈ fallback_results (dedupByText (enrich_results vm combined)) →
      (∀ v, dGet r "text" = some v → ∃ s, v = vStr s) ∧
      (∃ v, dGet r "score" = some v ∧ (v.asFloat?).isSome) := by
    intro hrf
    obtain ⟨d, hd, _, hks, hsc⟩ := fallback_mem_shape _ hewf r hrf
    refine ⟨?_, vFloat (1/2), hsc (henr d hd).2, rfl⟩
    intro v hv
    rw [hks "text" (by decide) (by decide) (by decide)] at hv
    exact (henr d hd).1 v hv
  cases hrr : env.rerankRaises with
  | some e =>
    rw [hrr] at hr
    exact hfallback hr
  | none =>
    rw [hrr] at hr
    simp only at hr
    by_cases hre : (rerank env.predict query (dedupByText (enrich_results vm combined))).isEmpty
    · rw [if_pos hre] at hr
      exact hfallback hr
    · rw [if_neg hre] at hr
      obtain ⟨d, hd, htext, _, hsc⟩ := rerank_mem_shape env.predict query _ hewf r hr
      refine ⟨?_, ?_⟩
      · intro v hv
        rw [htext] at hv
        exact ⟨d.page_content, (Option.some.inj hv).symm⟩
      · obtain ⟨v, hsv, hcases⟩ := hsc (henr d hd).2
        refine ⟨v, hsv, ?_⟩
        rcases hcases with rfl | rfl | ⟨q, rfl⟩ <;> rfl

theorem valid_dicts_typable (env : SearchEnv) (query : String) (vm : Dict VideoInfo)
    (combined : List Doc) (hdocs : ∀ d ∈ combined, docMdOk d) :
    ∀ r ∈ (valid_results0 (reranked_results env query
        (dedupByText (enrich_results vm combined)))).map normalize_video_id,
      requiredKeys.all (fun k => dHas r k) = true → ∃ c, mkChunk r = .ok c := by
  intro r hr hall
  obtain ⟨r0, hr0, rfl⟩ := List.mem_map.mp hr
  have hr0' : r0 ∈ reranked_results env query (dedupByText (enrich_results vm combined)) :=
    List.mem_of_mem_filter hr0
  obtain ⟨s, hs, _, _⟩ := reranked_good env query vm combined
    (fun d hd => (hdocs d hd).1) r0 hr0'
  rw [normalize_of_has r0 _ hs] at hall ⊢
  obtain ⟨htext, sv, hsv, hsvf⟩ := reranked_typable env query vm combined hdocs r0 hr0'
  have htk : dHas r0 "text" = true :=
    List.all_eq_true.mp hall "text" (by simp [requiredKeys])
  obtain ⟨tv, htv⟩ := Option.isSome_iff_exists.mp ((dHas_iff_isSome _ _).mp htk)
  obtain ⟨ts, rfl⟩ := htext tv htv
  have h1 : ((dGet r0 "text").getD vNone).asStr? = some ts := by rw [htv]; rfl
  have h2 : ((dGet r0 "video_id").getD vNone).asStr? = some s := by rw [hs]; rfl
  obtain ⟨fv, hfv⟩ := Option.isSome_iff_exists.mp hsvf
  have h3 : ((dGet r0 "score").getD vNone).asFloat? = some fv := by rw [hsv]; exact hfv
  exact ⟨_, by unfold mkChunk; rw [h1, h2, h3]⟩

theorem mkChunk_videoId (r : Dict PyVal) (c : ChunkSchema) (h : mkChunk r = .ok c) :
    ((dGet r "video_id").getD vNone).asStr? = some c.videoId := by
  unfold mkChunk at h
  cases ha : ((dGet r "text").getD vNone).asStr? with
  | none => simp [ha] at h
  | some t =>
    cases hb : ((dGet r "video_id").getD vNone).asStr? with
    | none => simp [ha, hb] at h
    | some v =>
      cases hc : ((dGet r "score").getD vNone).asFloat? with
      | none => simp [ha, hb, hc] at h
      | some sc =>
        simp only [ha, hb, hc] at h
        cases h
        rfl

theorem pfLt_asymm (a b : PyFloat) (h : pfLt a b = true) : pfLt b a = false := by
  cases a with
  | none => simp [pfLt] at h
  | some x =>
    cases b with
    | none => simp [pfLt] at h
    | some y =>
      simp only [pfLt, decide_eq_true_eq] at h
      simp only [pfLt, decide_eq_false_iff_not, not_lt]
      linarith

theorem pfLt_negtrans (a b c : PyFloat) (ha : a.isSome) (hb : b.isSome) (hc : c.isSome)
    (h1 : pfLt a b = false) (h2 : pfLt b c = false) : pfLt a c = false := by
  obtain ⟨x, rfl⟩ := Option.isSome_iff_exists.mp ha
  obtain ⟨y, rfl⟩ := Option.isSome_iff_exists.mp hb
  obtain ⟨z, rfl⟩ := Option.isSome_iff_exists.mp hc
  simp only [pfLt, decide_eq_false_iff_not, not_lt] at h1 h2 ⊢
  linarith

theorem most_mem_valid (valid : List (Dict PyVal)) :
    ∀ m ∈ most_common_video_ids valid, ∃ r ∈ valid, video_id_of r = m := by
  intro m hm
  rw [most_common_video_ids] at hm
  obtain ⟨p, hp, rfl⟩ := List.mem_map.mp hm
  have hps : p ∈ sortByDesc (fun a b : PyVal × Nat => a.2 < b.2)
      (counter_items (valid.map video_id_of)) := List.mem_of_mem_take hp
  have hpi : p ∈ counter_items (valid.map video_id_of) := (mem_sortByDesc _ _ p).mp hps
  rw [counter_items_eq] at hpi
  obtain ⟨x, hx, rfl⟩ := List.mem_map.mp hpi
  have : x ∈ valid.map video_id_of := (mem_dedupFirst _ x).mp hx
  obtain ⟨r, hr, rfl⟩ := List.mem_map.mp this
  exact ⟨r, hr, rfl⟩

theorem get_avg_score_isSome (chunks : List ChunkSchema)
    (hall : ∀ c ∈ chunks, c.score.isSome) (video_id : String) :
    (get_avg_score chunks video_id).isSome := by
  rw [get_avg_score]
  by_cases hemp : (chunks.filter (fun r => r.videoId = video_id)).isEmpty
  · simp [hemp]
  · have hrel : (chunks.filter (fun r => r.videoId = video_id)).all
        (fun r => r.score.isSome) = true := by
      rw [List.all_eq_true]
      intro c hc
      exact hall c (List.mem_of_mem_filter hc)
    simp [hemp, hrel]

theorem finalize_invariants (vm : Dict VideoInfo) (reranked : List (Dict PyVal))
    (resp : QueryVectorStoreResponse)
    (hgood : ∀ r ∈ (valid_results0 reranked).map normalize_video_id,
      ∃ s, dGet r "video_id" = some (vStr s) ∧ s ≠ "" ∧ ∃ info, dGet vm s = some info)
    (h : finalize vm reranked = .ok resp) :
    resp.videos.length ≤ 5 ∧
    (∀ c ∈ resp.chunks, ∃ v ∈ resp.videos, v.videoId = c.videoId) ∧
    (∀ v ∈ resp.videos, v.avg_score = get_avg_score resp.chunks v.videoId) ∧
    resp.videos.Pairwise (fun a b =>
      ∃ x y, a.avg_score = some x ∧ b.avg_score = some y ∧ y ≤ x) := by
  rw [finalize] at h
  by_cases hre : reranked.isEmpty
  · rw [if_pos hre] at h
    cases h
    simp
  · rw [if_neg hre] at h
    simp only at h
    by_cases hve : (valid_results0 reranked).isEmpty
    · rw [if_pos hve] at h
      cases h
      simp
    · rw [if_neg hve] at h
      cases hmins : minimise_chunks (top_chunks_of ((valid_results0 reranked).map
          normalize_video_id) (most_common_video_ids ((valid_results0 reranked).map
            normalize_video_id))) with
      | error e => rw [hmins] at h; cases h
      | ok mins =>
        rw [hmins] at h
        cases h
        have hstd_some : ∀ c ∈ standardize_scores mins, c.score.isSome :=
          standardize_all_some mins
        -- every chunk's video id is a selected id resolvable in the video map
        have hchunkvid : ∀ c ∈ standardize_scores mins, ∃ info,
            vStr c.videoId ∈ most_common_video_ids ((valid_results0 reranked).map
              normalize_video_id) ∧ dGet vm c.videoId = some info := by
          intro c hc
          obtain ⟨c0, hc0, hvid, _⟩ := standardize_mem_src mins c hc
          obtain ⟨r, hrtop, _, hmk⟩ := minimise_chunks_mem _ _ hmins c0 hc0
          rw [top_chunks_of] at hrtop
          obtain ⟨hrvalid, hrcont⟩ := List.mem_filter.mp hrtop
          obtain ⟨s, hs, hsne, info, hinfo⟩ := hgood r hrvalid
          have hasstr := mkChunk_videoId r c0 hmk
          rw [hs] at hasstr
          have hsv : s = c0.videoId := Option.some.inj hasstr
          have hvof : video_id_of r = vStr s := by rw [video_id_of, hs]; rfl
          have hmostmem : vStr s ∈ most_common_video_ids ((valid_results0 reranked).map
              normalize_video_id) := by
            rw [hvof] at hrcont
            exact List.elem_iff.mp hrcont
          rw [hvid, ← hsv]
          exact ⟨info, hmostmem, hinfo⟩
        -- the main video list and its characterization
        have hmainmem : ∀ c ∈ standardize_scores mins,
            ∃ v ∈ build_unique_videos vm (standardize_scores mins)
              (most_common_video_ids ((valid_results0 reranked).map normalize_video_id)),
              v.videoId = c.videoId := by
          intro c hc
          obtain ⟨info, hmost, hinfo⟩ := hchunkvid c hc
          have hmain : (⟨c.videoId,
              if info.title = "" then "Untitled Video" else info.title,
              info.thumbnail, info.published_at,
              get_avg_score (standardize_scores mins) c.videoId⟩ : VideoSchema) ∈
              (most_common_video_ids ((valid_results0 reranked).map
                normalize_video_id)).filterMap (fun vid =>
                match vid with
                | vStr s =>
                  match dGet vm s with
                  | some info =>
                    some (⟨s, if info.title = "" then "Untitled Video" else info.title,
                      info.thumbnail, info.published_at,
                      get_avg_score (standardize_scores mins) s⟩ : VideoSchema)
                  | none => none
                | _ => none) := by
            refine List.mem_filterMap.mpr ⟨vStr c.videoId, hmost, ?_⟩
            show (match dGet vm c.videoId with
              | some info =>
                some (⟨c.videoId, if info.title = "" then "Untitled Video" else info.title,
                  info.thumbnail, info.published_at,
                  get_avg_score (standardize_scores mins) c.videoId⟩ : VideoSchema)
              | none => none) = _
            rw [hinfo]
          rw [build_unique_videos]
          have hmainne : ¬ ((most_common_video_ids ((valid_results0 reranked).map
              normalize_video_id)).filterMap (fun vid =>
                match vid with
                | vStr s =>
                  match dGet vm s with
                  | some info =>
                    some (⟨s, if info.title = "" then "Untitled Video" else info.title,
                      info.thumbnail, info.published_at,
                      get_avg_score (standardize_scores mins) s⟩ : VideoSchema)
                  | none => none
                | _ => none)).isEmpty = true := by
            rw [List.isEmpty_iff]
            intro hnil
            rw [hnil] at hmain
            simp at hmain
          rw [Bool.eq_false_iff.mpr hmainne, Bool.false_and, if_neg Bool.false_ne_true]
          exact ⟨_, hmain, rfl⟩
        -- the minimal-schema branch is dead whenever chunks exist, so the built
        -- video list is exactly the main list; characterize its members
        have hvidsrc : ∀ v ∈ build_unique_videos vm (standardize_scores mins)
            (most_common_video_ids ((valid_results0 reranked).map normalize_video_id)),
            v.avg_score = get_avg_score (standardize_scores mins) v.videoId := by
          intro v hv
          rw [build_unique_videos] at hv
          by_cases hcond : ((most_common_video_ids ((valid_results0 reranked).map
              normalize_video_id)).filterMap (fun vid =>
                match vid with
                | vStr s =>
                  match dGet vm s with
                  | some info =>
                    some (⟨s, if info.title = "" then "Untitled Video" else info.title,
                      info.thumbnail, info.published_at,
                      get_avg_score (standardize_scores mins) s⟩ : VideoSchema)
                  | none => none
                | _ => none)).isEmpty && !(standardize_scores mins).isEmpty
          · -- main is empty yet chunks exist: impossible, since any chunk
            -- produces a main entry
            exfalso
            have hcond' := hcond
            rw [Bool.and_eq_true] at hcond'
            obtain ⟨hmainemp, hstdne⟩ := hcond'
            have hstdne' : ¬ (standardize_scores mins).isEmpty = true := by
              intro hx
              rw [hx] at hstdne
              simp at hstdne
            obtain ⟨c, hc⟩ := List.exists_mem_of_ne_nil (standardize_scores mins)
              (fun hnil => hstdne' (by rw [hnil]; rfl))
            have hmainnil := List.isEmpty_iff.mp hmainemp
            -- derive a member of the empty main list from the chunk c
            obtain ⟨info, hmost, hinfo⟩ := hchunkvid c hc
            have : (⟨c.videoId,
                if info.title = "" then "Untitled Video" else info.title,
                info.thumbnail, info.published_at,
                get_avg_score (standardize_scores mins) c.videoId⟩ : VideoSchema) ∈
                ([] : List VideoSchema) := by
              rw [← hmainnil]
              refine List.mem_filterMap.mpr ⟨vStr c.videoId, hmost, ?_⟩
              show (match dGet vm c.videoId with
                | some info =>
                  some (⟨c.videoId, if info.title = "" then "Untitled Video" else info.title,
                    info.thumbnail, info.published_at,
                    get_avg_score (standardize_scores mins) c.videoId⟩ : VideoSchema)
                | none => none) = _
              rw [hinfo]
            simp at this
          · rw [Bool.eq_false_iff.mpr hcond, if_neg Bool.false_ne_true] at hv
            obtain ⟨vid, hvidmem, hf⟩ := List.mem_filterMap.mp hv
            cases vid with
            | vStr s =>
              cases hlook : dGet vm s with
              | none =>
                have hf' : (match dGet vm s with
                  | some info =>
                    some (⟨s, if info.title = "" then "Untitled Video" else info.title,
                      info.thumbnail, info.published_at,
                      get_avg_score (standardize_scores mins) s⟩ : VideoSchema)
                  | none => none) = some v := hf
                rw [hlook] at hf'
                cases hf'
              | some info =>
                have hf' : (match dGet vm s with
                  | some info =>
                    some (⟨s, if info.title = "" then "Untitled Video" else info.title,
                      info.thumbnail, info.published_at,
                      get_avg_score (standardize_scores mins) s⟩ : VideoSchema)
                  | none => none) = some v := hf
                rw [hlook] at hf'
                cases hf'
                rfl
            | vInt n => cases hf
            | vFloat q => cases hf
            | vNan => cases hf
            | vNone => cases hf
            | vVideo w => cases hf
        have havg_some : ∀ v ∈ build_unique_videos vm (standardize_scores mins)
            (most_common_video_ids ((valid_results0 reranked).map normalize_video_id)),
            (v.avg_score).isSome := by
          intro v hv
          rw [hvidsrc v hv]
          exact get_avg_score_isSome _ hstd_some _
        refine ⟨?_, ?_, ?_, ?_⟩
        · -- at most five videos
          rw [length_sortByDesc]
          rw [build_unique_videos]
          by_cases hcond : ((most_common_video_ids ((valid_results0 reranked).map
                normalize_video_id)).filterMap (fun vid =>
                  match vid with
                  | vStr s =>
                    match dGet vm s with
                    | some info =>
                      some (⟨s, if info.title = "" then "Untitled Video" else info.title,
                        info.thumbnail, info.published_at,
                        get_avg_score (standardize_scores mins) s⟩ : VideoSchema)
                    | none => none
                  | _ => none)).isEmpty && !(standardize_scores mins).isEmpty
          · rw [hcond, if_pos rfl]
            refine le_trans (List.length_filterMap_le _ _) ?_
            rw [List.length_take]
            exact min_le_left 5 _
          · rw [Bool.eq_false_iff.mpr hcond, if_neg Bool.false_ne_true]
            refine le_trans (List.length_filterMap_le _ _) ?_
            rw [most_common_video_ids, List.length_map, List.length_take]
            exact min_le_left 5 _
        · -- every chunk's video appears among the returned videos
          intro c hc
          obtain ⟨v, hv, hveq⟩ := hmainmem c hc
          exact ⟨v, (mem_sortByDesc _ _ v).mpr hv, hveq⟩
        · -- averages are computed over the standardized chunks
          intro v hv
          exact hvidsrc v ((mem_sortByDesc _ _ v).mp hv)
        · -- videos sorted by average score descending
          have hpw := sortByDesc_pairwise videoLt (build_unique_videos vm
            (standardize_scores mins) (most_common_video_ids
              ((valid_results0 reranked).map normalize_video_id)))
            (fun a _ b _ hab => pfLt_asymm _ _ hab)
            (fun a ha b hb c hc h1 h2 => pfLt_negtrans _ _ _
              (havg_some a ha) (havg_some b hb) (havg_some c hc) h1 h2)
          refine List.Pairwise.imp_of_mem ?_ hpw
          intro a b ha hb hab
          have has := havg_some a ((mem_sortByDesc _ _ a).mp ha)
          have hbs := havg_some b ((mem_sortByDesc _ _ b).mp hb)
          obtain ⟨x, hx⟩ := Option.isSome_iff_exists.mp has
          obtain ⟨y, hy⟩ := Option.isSome_iff_exists.mp hbs
          refine ⟨x, y, hx, hy, ?_⟩
          rw [videoLt, hx, hy] at hab
          simpa [pfLt] using hab

theorem search_ok_finalize (env : SearchEnv) (query channel_id : String)
    (resp : QueryVectorStoreResponse)
    (h : similarity_videos_search env query channel_id = .ok resp) :
    resp = ⟨[], []⟩ ∨ ∃ vm, env.videoData = .ok vm ∧
      finalize vm (reranked_results env query
        (dedupByText (enrich_results vm (combined_results env)))) = .ok resp := by
  rw [similarity_videos_search] at h
  cases hb : env.vstoreFound with
  | false =>
    rw [hb] at h
    simp only [Bool.not_false, if_true] at h
    cases h
    exact Or.inl rfl
  | true =>
    rw [hb] at h
    simp only [Bool.not_true, Bool.false_eq_true, if_false] at h
    by_cases hcomb : (combined_results env).isEmpty
    · rw [if_pos hcomb] at h
      cases h
      exact Or.inl rfl
    · rw [if_neg hcomb] at h
      by_cases hids : (extracted_video_ids (combined_results env)).isEmpty
      · rw [if_pos hids] at h
        cases h
        exact Or.inl rfl
      · rw [if_neg hids] at h
        cases hvd : env.videoData with
        | error e => rw [hvd] at h; cases h
        | ok vm =>
          rw [hvd] at h
          have h' : (if (enrich_results vm (combined_results env)).isEmpty then
              (Except.ok ⟨[], []⟩ : Except PyErr QueryVectorStoreResponse)
            else finalize vm (reranked_results env query
              (dedupByText (enrich_results vm (combined_results env))))) = .ok resp := h
          by_cases henr : (enrich_results vm (combined_results env)).isEmpty
          · rw [if_pos henr] at h'
            cases h'
            exact Or.inl rfl
          · rw [if_neg henr] at h'
            exact Or.inr ⟨vm, rfl, h'⟩

/-- C5: every successful search result has at most five videos, every chunk
references a returned video, and the videos are sorted by average score
descending. (The well-formedness hypothesis says the retrieved documents
carry real Python dicts, i.e. no duplicate metadata keys.) -/
theorem search_response_invariants (env : SearchEnv) (query channel_id : String)
    (resp : QueryVectorStoreResponse)
    (hwf : ∀ d ∈ combined_results env, DictWF d.metadata)
    (h : similarity_videos_search env query channel_id = .ok resp) :
    resp.videos.length ≤ 5 ∧
    (∀ c ∈ resp.chunks, ∃ v ∈ resp.videos, v.videoId = c.videoId) ∧
    resp.videos.Pairwise (fun a b =>
      ∃ x y, a.avg_score = some x ∧ b.avg_score = some y ∧ y ≤ x) := by
  rcases search_ok_finalize env query channel_id resp h with rfl | ⟨vm, _, hfin⟩
  · exact ⟨by simp, by simp, by simp⟩
  · obtain ⟨h1, h2, _, h4⟩ := finalize_invariants vm _ resp
      (valid_dicts_good env query vm (combined_results env) hwf) hfin
    exact ⟨h1, h2, h4⟩

/-- Witness for `search_response_invariants`: a run whose vector store is
missing returns the empty result, which satisfies all three invariants. -/
theorem search_response_invariants_witness :
    ((∀ d ∈ combined_results (SearchEnv.mk false (Except.ok []) (Except.ok [])
          (Except.ok []) (fun _ => Except.ok []) none),
      DictWF d.metadata) ∧
     similarity_videos_search (SearchEnv.mk false (Except.ok []) (Except.ok [])
          (Except.ok []) (fun _ => Except.ok []) none)
        "q" "chan" = .ok ⟨[], []⟩) ∧
    ((⟨[], []⟩ : QueryVectorStoreResponse).videos.length ≤ 5 ∧
     (∀ c ∈ (⟨[], []⟩ : QueryVectorStoreResponse).chunks,
       ∃ v ∈ (⟨[], []⟩ : QueryVectorStoreResponse).videos, v.videoId = c.videoId) ∧
     (⟨[], []⟩ : QueryVectorStoreResponse).videos.Pairwise (fun a b =>
       ∃ x y, a.avg_score = some x ∧ b.avg_score = some y ∧ y ≤ x)) := by
  have hwf : ∀ d ∈ combined_results (SearchEnv.mk false (Except.ok []) (Except.ok [])
      (Except.ok []) (fun _ => Except.ok []) none), DictWF d.metadata := by
    intro d hd
    simp [combined_results, similarity_results, keyword_results, caughtOr] at hd
  have hrun : similarity_videos_search (SearchEnv.mk false (Except.ok []) (Except.ok [])
      (Except.ok []) (fun _ => Except.ok []) none) "q" "chan" = .ok ⟨[], []⟩ := rfl
  exact ⟨⟨hwf, hrun⟩,
    search_response_invariants _ "q" "chan" ⟨[], []⟩ hwf hrun⟩

/-! ### C4 (amended), C1 and C8 -/

/-- C4 (amended): min-max scaling fails only on non-finite scores (a single
finite score is handled by sklearn's zero-range fallback and scales to 0, see
the counterexample); when it fails, every retained chunk's score is set to
the neutral default 50; and standardization happens before per-video
averaging — every returned video's average is the mean over the returned
(standardized) chunks of that video. -/
theorem standardize_fallback_amended (env : SearchEnv) (query channel_id : String)
    (resp : QueryVectorStoreResponse)
    (hwf : ∀ d ∈ combined_results env, DictWF d.metadata)
    (h : similarity_videos_search env query channel_id = .ok resp) :
    (∀ chunks : List ChunkSchema, (∃ c ∈ chunks, c.score = none) →
      ∀ c ∈ standardize_scores chunks, c.score = some 50) ∧
    (∀ v ∈ resp.videos, v.avg_score = get_avg_score resp.chunks v.videoId) := by
  constructor
  · rintro chunks ⟨c0, hc0, hc0n⟩ c hc
    have hemp : chunks.isEmpty = false := by
      cases chunks with
      | nil => simp at hc0
      | cons a l => rfl
    have hallf : chunks.all (fun c => c.score.isSome) = false := by
      apply Bool.eq_false_iff.mpr
      intro hall
      have := List.all_eq_true.mp hall c0 hc0
      rw [hc0n] at this
      simp at this
    rw [standardize_scores, hemp] at hc
    simp only [Bool.false_eq_true, if_false, hallf] at hc
    obtain ⟨c1, _, rfl⟩ := List.mem_map.mp hc
    rfl
  · rcases search_ok_finalize env query channel_id resp h with rfl | ⟨vm, _, hfin⟩
    · simp
    · exact (finalize_invariants vm _ resp
        (valid_dicts_good env query vm (combined_results env) hwf) hfin).2.2.1

/-- Witness for `standardize_fallback_amended` at the empty-store run. -/
theorem standardize_fallback_amended_witness :
    ((∀ d ∈ combined_results (SearchEnv.mk false (Except.ok []) (Except.ok [])
          (Except.ok []) (fun _ => Except.ok []) none),
      DictWF d.metadata) ∧
     similarity_videos_search (SearchEnv.mk false (Except.ok []) (Except.ok [])
          (Except.ok []) (fun _ => Except.ok []) none) "q" "chan" = .ok ⟨[], []⟩) ∧
    ((∀ chunks : List ChunkSchema, (∃ c ∈ chunks, c.score = none) →
      ∀ c ∈ standardize_scores chunks, c.score = some 50) ∧
     (∀ v ∈ (⟨[], []⟩ : QueryVectorStoreResponse).videos,
       v.avg_score = get_avg_score (⟨[], []⟩ : QueryVectorStoreResponse).chunks v.videoId)) := by
  have hwf : ∀ d ∈ combined_results (SearchEnv.mk false (Except.ok []) (Except.ok [])
      (Except.ok []) (fun _ => Except.ok []) none), DictWF d.metadata := by
    intro d hd
    simp [combined_results, similarity_results, keyword_results, caughtOr] at hd
  have hrun : similarity_videos_search (SearchEnv.mk false (Except.ok []) (Except.ok [])
      (Except.ok []) (fun _ => Except.ok []) none) "q" "chan" = .ok ⟨[], []⟩ := rfl
  exact ⟨⟨hwf, hrun⟩,
    standardize_fallback_amended _ "q" "chan" ⟨[], []⟩ hwf hrun⟩

/-- C1 (counterexample): an exception in `_get_video_data` (a database error)
propagates out of `similarity_videos_search` — there is no outer catch-all,
so the search does NOT always return a `QueryResult`. -/
theorem search_raises_counterexample :
    similarity_videos_search envDbDown "q" "chan" = .error ⟨"database error"⟩ := rfl

/-- C1 (amended): the similarity-search, keyword-search and rerank stages are
individually guarded, so when the video-data fetch succeeds (and the
retrieved documents are well-formed), the search returns a `QueryResult` for
every query; only an exception in the unguarded `_get_video_data` (or in
pydantic validation) escapes to the caller. -/
theorem search_returns_of_video_data (env : SearchEnv) (query channel_id : String)
    (vm : Dict VideoInfo) (hvd : env.videoData = .ok vm)
    (hdocs : ∀ d ∈ combined_results env, docMdOk d) :
    ∃ resp, similarity_videos_search env query channel_id = .ok resp := by
  have hfin : ∃ resp, finalize vm (reranked_results env query
      (dedupByText (enrich_results vm (combined_results env)))) = .ok resp := by
    rw [finalize]
    by_cases hre : (reranked_results env query
        (dedupByText (enrich_results vm (combined_results env)))).isEmpty
    · exact ⟨⟨[], []⟩, by rw [if_pos hre]⟩
    · rw [if_neg hre]
      simp only
      by_cases hve : (valid_results0 (reranked_results env query
          (dedupByText (enrich_results vm (combined_results env))))).isEmpty
      · exact ⟨⟨[], []⟩, by rw [if_pos hve]⟩
      · rw [if_neg hve]
        obtain ⟨cs, hcs⟩ := minimise_chunks_ok
          (top_chunks_of ((valid_results0 (reranked_results env query
              (dedupByText (enrich_results vm (combined_results env))))).map
              normalize_video_id)
            (most_common_video_ids ((valid_results0 (reranked_results env query
              (dedupByText (enrich_results vm (combined_results env))))).map
              normalize_video_id)))
          (fun r hr hall =>
            valid_dicts_typable env query vm (combined_results env) hdocs r
              (List.mem_of_mem_filter
                (show r ∈ List.filter _ _ from hr)) hall)
        rw [hcs]
        exact ⟨_, rfl⟩
  rw [similarity_videos_search]
  cases hb : env.vstoreFound with
  | false =>
    refine ⟨⟨[], []⟩, ?_⟩
    simp
  | true =>
    simp only [Bool.not_true, Bool.false_eq_true, if_false]
    by_cases hcomb : (combined_results env).isEmpty
    · rw [if_pos hcomb]
      exact ⟨⟨[], []⟩, rfl⟩
    · rw [if_neg hcomb]
      by_cases hids : (extracted_video_ids (combined_results env)).isEmpty
      · rw [if_pos hids]
        exact ⟨⟨[], []⟩, rfl⟩
      · rw [if_neg hids, hvd]
        by_cases henr : (enrich_results vm (combined_results env)).isEmpty
        · refine ⟨⟨[], []⟩, ?_⟩
          show (if (enrich_results vm (combined_results env)).isEmpty then
              (Except.ok ⟨[], []⟩ : Except PyErr QueryVectorStoreResponse)
            else finalize vm (reranked_results env query
              (dedupByText (enrich_results vm (combined_results env))))) = Except.ok ⟨[], []⟩
          rw [if_pos henr]
        · obtain ⟨resp, hresp⟩ := hfin
          refine ⟨resp, ?_⟩
          show (if (enrich_results vm (combined_results env)).isEmpty then
              (Except.ok ⟨[], []⟩ : Except PyErr QueryVectorStoreResponse)
            else finalize vm (reranked_results env query
              (dedupByText (enrich_results vm (combined_results env))))) = Except.ok resp
          rw [if_neg henr]
          exact hresp

/-- Witness for `search_returns_of_video_data` on the two-hit run. -/
theorem search_returns_of_video_data_witness :
    (envHappy.videoData = .ok [("v1", ⟨"v1", "T1", "th1", "2024-01-01", "ch"⟩),
      ("v2", ⟨"v2", "T2", "th2", "2024-01-02", "ch"⟩)] ∧
     (∀ d ∈ combined_results envHappy, docMdOk d)) ∧
    ∃ resp, similarity_videos_search envHappy "q" "chan" = .ok resp := by
  have hdocs : ∀ d ∈ combined_results envHappy, docMdOk d := by
    intro d hd
    have hd' : d = (⟨"alpha", [("video_id", vStr "v1"), ("text", vStr "alpha"),
        ("start", vStr "00:00:00"), ("end", vStr "00:00:40")]⟩ : Doc) ∨
        d = (⟨"beta", [("id", vInt 1), ("video_id", vStr "v2"),
        ("start", vStr "00:00:10"), ("end", vStr "00:00:50"), ("text", vStr "beta")]⟩ : Doc) := by
      simpa [combined_results, similarity_results, keyword_results, caughtOr, envHappy]
        using hd
    rcases hd' with rfl | rfl
    · refine ⟨by decide, ?_, by decide⟩
      intro v hv
      refine ⟨"alpha", ?_⟩
      have : some (vStr "alpha") = some v := by
        rw [← hv]
        decide
      exact (Option.some.inj this).symm
    · refine ⟨by decide, ?_, by decide⟩
      intro v hv
      refine ⟨"beta", ?_⟩
      have : some (vStr "beta") = some v := by
        rw [← hv]
        decide
      exact (Option.some.inj this).symm
  exact ⟨⟨rfl, hdocs⟩, search_returns_of_video_data envHappy "q" "chan" _ rfl hdocs⟩

/-- C8: when `ChunksReRanker.rerank` raises (or returns the empty list), the
orchestrator continues the pipeline on the fallback results — the enriched,
deduplicated candidates capped to the first 10, each assigned the default
score 0.5 (each fallback dict is `{"content": ..., "video_id": ...,
"score": 0.5, **doc.metadata}`). -/
theorem rerank_fallback_path (env : SearchEnv) (query channel_id : String)
    (vm : Dict VideoInfo) (hvd : env.videoData = .ok vm)
    (hvs : env.vstoreFound = true)
    (hcomb : (combined_results env).isEmpty = false)
    (hids : (extracted_video_ids (combined_results env)).isEmpty = false)
    (henr : (enrich_results vm (combined_results env)).isEmpty = false)
    (hfail : env.rerankRaises.isSome = true ∨
      rerank env.predict query (dedupByText (enrich_results vm (combined_results env))) = []) :
    similarity_videos_search env query channel_id =
      finalize vm (fallback_results (dedupByText (enrich_results vm (combined_results env)))) ∧
    fallback_results (dedupByText (enrich_results vm (combined_results env))) =
      ((dedupByText (enrich_results vm (combined_results env))).take 10).map (fun doc =>
        dSetAll (dSet (dSet (dSet [] "content" (vStr doc.page_content))
          "video_id" ((dGet doc.metadata "video_id").getD vNone))
          "score" (vFloat (1/2))) doc.metadata) ∧
    (∀ doc : Doc, DictWF doc.metadata → dGet doc.metadata "score" = none →
      dGet (dSetAll (dSet (dSet (dSet [] "content" (vStr doc.page_content))
        "video_id" ((dGet doc.metadata "video_id").getD vNone))
        "score" (vFloat (1/2))) doc.metadata) "score" = some (vFloat (1/2))) := by
  have hrrk : reranked_results env query (dedupByText (enrich_results vm
      (combined_results env))) =
      fallback_results (dedupByText (enrich_results vm (combined_results env))) := by
    rw [reranked_results]
    cases hrr : env.rerankRaises with
    | some e => rfl
    | none =>
      rcases hfail with hs | hempty
      · rw [hrr] at hs
        simp at hs
      · simp only [hempty]
        rfl
  refine ⟨?_, rfl, ?_⟩
  · rw [similarity_videos_search, hvs]
    simp only [Bool.not_true, Bool.false_eq_true, if_false]
    rw [if_neg (by rw [hcomb]; exact Bool.false_ne_true),
      if_neg (by rw [hids]; exact Bool.false_ne_true), hvd]
    show (if (enrich_results vm (combined_results env)).isEmpty then
        (Except.ok ⟨[], []⟩ : Except PyErr QueryVectorStoreResponse)
      else finalize vm (reranked_results env query
        (dedupByText (enrich_results vm (combined_results env))))) = _
    rw [if_neg (by rw [henr]; exact Bool.false_ne_true), hrrk]
  · intro doc hwf hsc
    rw [dGet_dSetAll_of_none _ _ _ hsc]
    simp [dSet, dGet]

/-- Witness for `rerank_fallback_path`: the two-hit run with a raising
reranker. -/
theorem rerank_fallback_path_witness :
    (envRerankFail.videoData = .ok [("v1", ⟨"v1", "T1", "th1", "2024-01-01", "ch"⟩),
        ("v2", ⟨"v2", "T2", "th2", "2024-01-02", "ch"⟩)] ∧
     envRerankFail.vstoreFound = true ∧
     (combined_results envRerankFail).isEmpty = false ∧
     (extracted_video_ids (combined_results envRerankFail)).isEmpty = false ∧
     (enrich_results [("v1", ⟨"v1", "T1", "th1", "2024-01-01", "ch"⟩),
        ("v2", ⟨"v2", "T2", "th2", "2024-01-02", "ch"⟩)]
        (combined_results envRerankFail)).isEmpty = false ∧
     envRerankFail.rerankRaises.isSome = true) ∧
    similarity_videos_search envRerankFail "q" "chan" =
      finalize [("v1", ⟨"v1", "T1", "th1", "2024-01-01", "ch"⟩),
        ("v2", ⟨"v2", "T2", "th2", "2024-01-02", "ch"⟩)]
        (fallback_results (dedupByText (enrich_results
          [("v1", ⟨"v1", "T1", "th1", "2024-01-01", "ch"⟩),
           ("v2", ⟨"v2", "T2", "th2", "2024-01-02", "ch"⟩)]
          (combined_results envRerankFail)))) := by
  refine ⟨⟨rfl, rfl, by decide, by decide, by decide, rfl⟩, ?_⟩
  exact (rerank_fallback_path envRerankFail "q" "chan" _ rfl rfl (by decide) (by decide)
    (by decide) (Or.inl rfl)).1
